import Mathlib

/-!
# Verification of the `bevy_mod_config` configuration tree engine

Shallow embedding of the repository's data model and operations:

* `Val` / `ScalarComp` / `Node` / `World`: the entity store.  Each `Node` models one
  config entity with its `ConfigNode` component (`path`, `generation`, from `src/tree.rs`),
  its optional `ScalarData<T>` component, its optional `ConditionalRelevance` component and
  its `ChildNodeList` relationship target.
* `Schema` (with `Fields`/`Variants`): the reflected input of `#[derive(Config)]`
  (`macros/src/config.rs`): a field tree of scalar leaves, structs and enums.
* `spawnWorld`: `ConfigFieldFor::spawn_world` as generated by `gen_spawn_world` /
  `gen_discrim` / `impl_scalar_config_field!`.
* `changed`: `ConfigField::changed` as generated by `gen_changed_fn_struct` /
  `gen_changed_fn_enum` / `impl_scalar_config_field!`.
* `serializeAll` / `deserialize`: the `Serde` manager (`src/manager/serde.rs`) through the
  JSON adapter.
* `showNode`: the egui editor traversal (`src/manager/egui.rs`).
* `initConfigWith` / `consumeChange`: the app-level registry (`src/app.rs`).
-/

namespace BevyModConfig

/-- A scalar payload as stored in a `ScalarData<T>` component.  The constructors track the
scalar types used by the repository's schemas: integers (`i32`, ...), floats (`f32`, modelled
as exact rationals; only exactly-representable values appear in the verified scenarios),
strings, booleans, and enum discriminants.  A discriminant value carries its variant-name
list (the `EnumDiscriminant::VARIANTS`/`name`/`from_name` data of its Rust type) together
with the current variant name. -/
inductive Val where
  | int (n : Int)
  | float (q : Rat)
  | str (s : String)
  | boolean (b : Bool)
  | discrim (variants : List String) (current : String)
deriving DecidableEq

/-- One `ScalarData<T>` component instance.  `viaWrapper` records the Rust component type:
`true` when `T = EnumDiscriminantWrapper<D>` (the component type inserted by the generated
`spawn_world` for enum discriminant nodes, `macros/src/config.rs` `gen_discrim`), `false`
for plain scalar types.  Component lookups in queries must match on this type: a query for
`ScalarData<D>` does not resolve on an entity holding `ScalarData<EnumDiscriminantWrapper<D>>`. -/
structure ScalarComp where
  viaWrapper : Bool
  val : Val
deriving DecidableEq

/-- One config entity: the `ConfigNode` component (`path`, `generation`), the optional
`ScalarData` component, the optional `ConditionalRelevance` component (dependency entity
plus the variant name compared by the generated `is_entity_relevant` predicate), and the
`ChildNodeList` relationship target maintained through `ChildNodeOf`. -/
structure Node where
  path : List String
  generation : Nat
  scalar : Option ScalarComp := none
  relevance : Option (Nat × String) := none
  children : List Nat := []
deriving DecidableEq

/-- The world: entities are indices into the list; spawning appends. -/
abbrev World := List Node

/-- Replace the node at index `e` (identity elsewhere). -/
def modifyNode : World → Nat → (Node → Node) → World
  | [], _, _ => []
  | n :: w, 0, f => f n :: w
  | n :: w, e + 1, f => n :: modifyNode w e f

/-- `SpawnContext` (`src/lib.rs`). -/
structure SpawnContext where
  path : List String
  parent : Option Nat
  dependency : Option (Nat × String)

/-- `SpawnContext::join`: appends path components, replaces the parent and clears the
dependency. -/
def SpawnContext.join (ctx : SpawnContext) (key : List String) (parent : Option Nat) :
    SpawnContext :=
  { path := ctx.path ++ key, parent := parent, dependency := none }

/-- `SpawnContext::with_dependency`: records a `ConditionalRelevance` on the context.  The
derive macro always passes the predicate `discriminant == Variant`, so the predicate is
modelled by the expected variant name. -/
def SpawnContext.withDependency (ctx : SpawnContext) (dependency : Nat) (variant : String) :
    SpawnContext :=
  { ctx with dependency := some (dependency, variant) }

mutual
/-- A reflected `#[derive(Config)]` schema: scalar leaf (with the default value produced
from its metadata), struct with ordered named fields, or enum with a default variant index
(`Metadata::default` picks the first variant unless overridden) and ordered variants. -/
inductive Schema where
  | scalar (default : Val)
  | strukt (fields : Fields)
  | enum (defaultVariant : Nat) (variants : Variants)

/-- Ordered `(hierarchy key, field type)` list of a struct or of one enum variant. -/
inductive Fields where
  | nil
  | cons (key : String) (s : Schema) (rest : Fields)

/-- Ordered `(variant name, variant fields)` list of an enum. -/
inductive Variants where
  | nil
  | cons (name : String) (fields : Fields) (rest : Variants)
end

mutual
/-- The `SpawnHandle` retained for a field subtree: a scalar keeps its entity; the derive
macro generates a struct holding the composite's own node entity plus one handle per field
(for enums: the discriminant entity and one handle per variant field). -/
inductive SpawnHandle where
  | leaf (entity : Nat)
  | strukt (node : Nat) (fields : Handles)
  | henum (node : Nat) (discrim : Nat) (variants : VariantHandles)

/-- Handles of the fields of a struct or of one enum variant, in declaration order. -/
inductive Handles where
  | nil
  | cons (h : SpawnHandle) (rest : Handles)

/-- Handles of each variant's fields, in declaration order. -/
inductive VariantHandles where
  | nil
  | cons (handles : Handles) (rest : VariantHandles)
end

/-- The variant names of an enum schema, in order. -/
def Variants.names : Variants → List String
  | .nil => []
  | .cons name _ rest => name :: rest.names

/-- Index lookup into a `Fields` list. -/
def Fields.get? : Fields → Nat → Option (String × Schema)
  | .nil, _ => none
  | .cons key s _, 0 => some (key, s)
  | .cons _ _ rest, i + 1 => rest.get? i

/-- Index lookup into a `Handles` list. -/
def Handles.get? : Handles → Nat → Option SpawnHandle
  | .nil, _ => none
  | .cons h _, 0 => some h
  | .cons _ rest, i + 1 => rest.get? i

/-- Number of fields. -/
def Fields.length : Fields → Nat
  | .nil => 0
  | .cons _ _ rest => rest.length + 1

/-- Number of handles. -/
def Handles.length : Handles → Nat
  | .nil => 0
  | .cons _ rest => rest.length + 1

/-- Inserting `ChildNodeOf(parent)` on a freshly spawned child appends the child to the
parent's `ChildNodeList` (relationship maintained by `bevy_ecs`). -/
def addChild (w : World) (parent : Option Nat) (child : Nat) : World :=
  match parent with
  | none => w
  | some p => modifyNode w p fun n => { n with children := n.children ++ [child] }

/-- Spawn one scalar config entity: insert `ScalarData` (initialised from the metadata
default) and run `init_config_node` (fresh `ConfigNode` with `FieldGeneration` 1, the
optional `ChildNodeOf` link, the optional `ConditionalRelevance`).  Mirrors the expansion
of `impl_scalar_config_field!` and of `gen_discrim`'s `spawn_world`. -/
def spawnScalar (w : World) (ctx : SpawnContext) (comp : ScalarComp) : World × Nat :=
  let e := w.length
  let w := w ++ [{ path := ctx.path, generation := 1, scalar := some comp,
                   relevance := ctx.dependency, children := [] }]
  (addChild w ctx.parent e, e)

/-- Spawn the composite's own node: `spawn_empty` followed by `init_config_node`
(`gen_spawn_world`). -/
def spawnCompositeNode (w : World) (ctx : SpawnContext) : World × Nat :=
  let e := w.length
  let w := w ++ [{ path := ctx.path, generation := 1, scalar := none,
                   relevance := ctx.dependency, children := [] }]
  (addChild w ctx.parent e, e)

mutual
/-- `ConfigFieldFor::spawn_world`.
* Scalars spawn one entity (`impl_scalar_config_field!`), with `viaWrapper := false`.
* Structs spawn their own node, then each field at `ctx.join([key], Some(node))`
  (`gen_spawn_world`, struct branch; field hierarchy keys come from `StructInput::new`).
* Enums spawn their own node, then a discriminant entity at `ctx.join(["discrim"], ...)`
  holding `ScalarData(EnumDiscriminantWrapper(metadata.default))` (`gen_discrim`,
  `EnumInput::new`), then every variant's fields — each at
  `ctx.join([variant, key], Some(node)).with_dependency(discrim, variant)`
  (`gen_spawn_world`, enum branch; variant-field hierarchy keys are the two segments
  produced by `EnumInput::new`). -/
def spawnWorld : Schema → SpawnContext → World → World × SpawnHandle
  | .scalar d, ctx, w =>
      let r := spawnScalar w ctx { viaWrapper := false, val := d }
      (r.1, .leaf r.2)
  | .strukt fields, ctx, w =>
      let c := spawnCompositeNode w ctx
      let f := spawnFields fields none c.2 ctx c.1
      (f.1, .strukt c.2 f.2)
  | .enum defaultVariant variants, ctx, w =>
      let c := spawnCompositeNode w ctx
      let names := variants.names
      let dr := spawnScalar c.1 (ctx.join ["discrim"] (some c.2))
        { viaWrapper := true, val := .discrim names (names.getD defaultVariant "") }
      let vr := spawnVariantList variants c.2 dr.2 ctx dr.1
      (vr.1, .henum c.2 dr.2 vr.2)

/-- The context a field's subtree is spawned with.  For a struct field
(`inVariant = none`): `ctx.join([key], Some(parent))`, the single-segment hierarchy key of
`StructInput::new`.  For an enum variant field (`inVariant = some (variantName, discrim)`):
`ctx.join([variantName, key], Some(parent)).with_dependency(discrim, variantName)` — the
two-segment hierarchy key of `EnumInput::new` plus the relevance dependency of
`gen_spawn_world`. -/
def fieldCtx (ctx : SpawnContext) (key : String) (inVariant : Option (String × Nat))
    (parent : Nat) : SpawnContext :=
  match inVariant with
  | none => ctx.join [key] (some parent)
  | some (variantName, discrimE) =>
      (ctx.join [variantName, key] (some parent)).withDependency discrimE variantName

/-- Spawn a field list.  `inVariant = some (variantName, discrimEntity)` when the fields
belong to an enum variant. -/
def spawnFields : Fields → Option (String × Nat) → Nat → SpawnContext → World →
    World × Handles
  | .nil, _, _, _, w => (w, .nil)
  | .cons key s rest, inVariant, parent, ctx, w =>
      let r := spawnWorld s (fieldCtx ctx key inVariant parent) w
      let rr := spawnFields rest inVariant parent ctx r.1
      (rr.1, .cons r.2 rr.2)

/-- Spawn the field subtrees of every variant (`gen_spawn_world`, enum branch: all
variants are spawned, not only the active one). -/
def spawnVariantList : Variants → Nat → Nat → SpawnContext → World →
    World × VariantHandles
  | .nil, _, _, _, w => (w, .nil)
  | .cons name fields rest, parent, discrimE, ctx, w =>
      let r := spawnFields fields (some (name, discrimE)) parent ctx w
      let rr := spawnVariantList rest parent discrimE ctx r.1
      (rr.1, .cons r.2 rr.2)
end

/-! ## Change detection (`ConfigField::changed`) -/

mutual
/-- `ConfigField::Changed` values: scalars yield the node's `FieldGeneration`
(`impl_scalar_config_field!`); structs yield the generated `...Changed` struct holding one
child witness per field (`gen_changed_struct`); enums yield the generated `...Changed` enum
— a tagged union keyed by the current discriminant value holding the active variant's child
witnesses (`gen_changed_enum`). -/
inductive ChangedVal where
  | leaf (generation : Nat)
  | node (cs : ChangedList)
  | tagged (variant : String) (cs : ChangedList)

/-- The per-field witnesses of a struct or of one enum variant. -/
inductive ChangedList where
  | nil
  | cons (c : ChangedVal) (rest : ChangedList)
end

mutual
def ChangedVal.beq : ChangedVal → ChangedVal → Bool
  | .leaf g, .leaf g' => g == g'
  | .node cs, .node cs' => cs.beq cs'
  | .tagged v cs, .tagged v' cs' => v == v' && cs.beq cs'
  | _, _ => false

def ChangedList.beq : ChangedList → ChangedList → Bool
  | .nil, .nil => true
  | .cons c cs, .cons c' cs' => c.beq c' && cs.beq cs'
  | _, _ => false
end

/-- Look up the `ScalarData` component of an entity, for the component type recorded by
`viaWrapper` (`Option<&ScalarData<T>>`-style query access: `None` when the entity lacks the
requested component type). -/
def getScalarComp (w : World) (e : Nat) (viaWrapper : Bool) : Option Val :=
  match w.get? e with
  | none => none
  | some n =>
      match n.scalar with
      | none => none
      | some c => if c.viaWrapper = viaWrapper then some c.val else none

/-- Index lookup into a `VariantHandles` list. -/
def VariantHandles.get? : VariantHandles → Nat → Option Handles
  | .nil, _ => none
  | .cons hs _, 0 => some hs
  | .cons _ rest, i + 1 => rest.get? i

/-- Index lookup into a `ChangedList`. -/
def ChangedList.get? : ChangedList → Nat → Option ChangedVal
  | .nil, _ => none
  | .cons c _, 0 => some c
  | .cons _ rest, i + 1 => rest.get? i

mutual
/-- `ConfigField::changed`.  `none` models the panics of the generated code (a
`QueryLike::get` that does not resolve, a shape mismatch between schema and handle).

* Scalars return the node's `generation` (`impl_scalar_config_field!`).
* Structs recurse into every field (`gen_changed_fn_struct`).
* Enums (`gen_changed_fn_enum`): the generated `ChangedQueryData` requests the component
  `&ScalarData<Discrim>` for the discriminant entity — the *bare* discriminant type, i.e.
  `viaWrapper := false` — and dispatches on its value into the active variant's fields,
  producing the tagged witness.  (Spawning only ever inserts
  `ScalarData<EnumDiscriminantWrapper<Discrim>>` on the discriminant entity, so this lookup
  fails on spawned worlds; in `bevy_ecs` the un-inserted component additionally prevents
  the whole change query from matching any entity, so the `expect` panics even earlier.
  Either way no witness is returned, which this model renders as `none`.) -/
def changed (w : World) : Schema → SpawnHandle → Option ChangedVal
  | .scalar _, .leaf e =>
      match w.get? e with
      | none => none
      | some n => some (.leaf n.generation)
  | .strukt fields, .strukt _ hs =>
      match changedFields w fields hs with
      | none => none
      | some cs => some (.node cs)
  | .enum _ variants, .henum _ discrimE vhs =>
      match getScalarComp w discrimE false with
      | some (.discrim _ current) => changedVariants w variants vhs current
      | _ => none
  | _, _ => none

/-- The `match discrim { Variant => ChangedEnum::Variant { ... } }` dispatch: the arm whose
variant name equals the current discriminant value computes that variant's field
witnesses. -/
def changedVariants (w : World) : Variants → VariantHandles → String → Option ChangedVal
  | .cons name fields rest, .cons hs vhsRest, current =>
      if name = current then
        match changedFields w fields hs with
        | none => none
        | some cs => some (.tagged current cs)
      else changedVariants w rest vhsRest current
  | _, _, _ => none

def changedFields (w : World) : Fields → Handles → Option ChangedList
  | .nil, .nil => some .nil
  | .cons _ s fsRest, .cons h hsRest =>
      match changed w s h with
      | none => none
      | some c =>
          match changedFields w fsRest hsRest with
          | none => none
          | some cs => some (.cons c cs)
  | _, _ => none
end

/-- `Option::is_none_or`. -/
def isNoneOr (p : ChangedVal → Bool) : Option ChangedVal → Bool
  | none => true
  | some v => p v

/-- `ReadConfigChange::consume_change` (`src/app.rs`): compares the freshly computed
witness against the `Local` cache; on a difference (or an empty cache) stores the new
witness and reports `true`.  Returns the report plus the new cache contents. -/
def consumeChange (lastValue : Option ChangedVal) (changedNow : ChangedVal) :
    Bool × Option ChangedVal :=
  if isNoneOr (fun v => !v.beq changedNow) lastValue then (true, some changedNow)
  else (false, lastValue)

/-- `FieldGeneration::next` applied to a node, as performed by the egui editor on a
confirmed edit. -/
def bumpGeneration (w : World) (e : Nat) : World :=
  modifyNode w e fun n => { n with generation := n.generation + 1 }

/-- Overwrite the stored scalar value of an entity (keeping the component type), the
mutation performed by an editor writing through `ScalarData<T>`. -/
def setScalarVal (w : World) (e : Nat) (v : Val) : World :=
  modifyNode w e fun n =>
    { n with scalar := n.scalar.map fun c => { viaWrapper := c.viaWrapper, val := v } }

mutual
/-- The schema contains no enum field (and hence no discriminant node): the shape of
schemas for which the generated change-detection query can resolve at all (cf. the enum
component mismatch refuted separately). -/
def Schema.enumFree : Schema → Bool
  | .scalar _ => true
  | .strukt fields => fields.enumFree
  | .enum _ _ => false

def Fields.enumFree : Fields → Bool
  | .nil => true
  | .cons _ s rest => s.enumFree && rest.enumFree
end

mutual
/-- Every entity retained in a spawn handle (subtree nodes, discriminants and scalar
leaves). -/
def SpawnHandle.refs : SpawnHandle → List Nat
  | .leaf e => [e]
  | .strukt node hs => node :: hs.refs
  | .henum node discrim vhs => node :: discrim :: vhs.refs

def Handles.refs : Handles → List Nat
  | .nil => []
  | .cons h rest => h.refs ++ rest.refs

def VariantHandles.refs : VariantHandles → List Nat
  | .nil => []
  | .cons hs rest => hs.refs ++ rest.refs
end

mutual
/-- The handle structurally matches the schema and the entities read by `changed` are
present in the world (the invariant established by `spawn_world`). -/
def shaped (w : World) : Schema → SpawnHandle → Bool
  | .scalar _, .leaf e => (w.get? e).isSome
  | .strukt fields, .strukt _ hs => shapedFields w fields hs
  | .enum _ _, .henum _ discrim _ => (w.get? discrim).isSome
  | _, _ => false

def shapedFields (w : World) : Fields → Handles → Bool
  | .nil, .nil => true
  | .cons _ s fsRest, .cons h hsRest => shaped w s h && shapedFields w fsRest hsRest
  | _, _ => false
end

/-- Navigate a schema/handle pair down a list of struct-field indices (the ancestor chain
of a field: each prefix of the position denotes one enclosing composite). -/
def subAt : Schema → SpawnHandle → List Nat → Option (Schema × SpawnHandle)
  | s, h, [] => some (s, h)
  | .strukt fields, .strukt _ hs, i :: rest =>
      match fields.get? i, hs.get? i with
      | some (_, si), some hi => subAt si hi rest
      | _, _ => none
  | _, _, _ => none

/-- The components of a node that spawning never mutates on existing entities (`addChild`
touches only `children`). -/
def Node.core (n : Node) : List String × Nat × Option ScalarComp × Option (Nat × String) :=
  (n.path, n.generation, n.scalar, n.relevance)

/-- What one spawn call does to the world, relative to a handle's entity set: the world
grows, existing entities keep their core components, and the retained entities are fresh
and distinct. -/
def SpawnInv (w0 w : World) (refs : List Nat) : Prop :=
  w0.length ≤ w.length ∧
  (∀ i, i < w0.length → (w.get? i).map Node.core = (w0.get? i).map Node.core) ∧
  (∀ x ∈ refs, w0.length ≤ x ∧ x < w.length) ∧
  refs.Nodup

/-! ## The `Serde` persistence manager (`src/manager/serde.rs`, JSON adapter) -/

/-- `SerdeScalar::as_serialize`: plain scalars serialize themselves; enum discriminants
serialize as their variant name (`EnumDiscriminantWrapper` impl: `self.0.name()`). -/
def serializeScalarVal : Val → Val
  | .discrim _ current => .str current
  | v => v

/-- `Serde::keys_with_types`: for every registered scalar type, scan the world for entities
with `ScalarData<T>` and collect `(path, entity)` pairs.  Since a type is registered
exactly when some entity of it was spawned, the union over all registered types is the set
of all entities holding a `ScalarData` component.  The resulting order depends on registry
and query iteration order; `serializeAllScan` below therefore takes the scan list as an
argument. -/
def keysWithTypes (w : World) : List (List String × Nat) :=
  (List.range w.length).filterMap fun e =>
    match w.get? e with
    | some n => if n.scalar.isSome then some (n.path, e) else none
    | none => none

/-- Strict character order: by code point (for the ASCII path segments of config trees this
agrees with Rust's byte-wise `str` order). -/
def charLt (a b : Char) : Bool := a.toNat < b.toNat

/-- Strict lexicographic order on character lists (`str::cmp`). -/
def charsLt : List Char → List Char → Bool
  | [], [] => false
  | [], _ :: _ => true
  | _ :: _, [] => false
  | a :: as_, b :: bs => if charLt a b then true else if a = b then charsLt as_ bs else false

/-- Strict string order (`String::cmp`). -/
def strLt (a b : String) : Bool := charsLt a.data b.data

/-- `Vec<String>::cmp` as a ≤ test: lexicographic comparison of path segment lists using
the string order. -/
def pathLe : List String → List String → Bool
  | [], _ => true
  | _ :: _, [] => false
  | a :: as_, b :: bs => if strLt a b then true else if a = b then pathLe as_ bs else false

/-- The sort key of `keys.sort_by(|((path1, _), _), ((path2, _), _)| path1.cmp(path2))`. -/
def scanLe (a b : List String × Nat) : Prop := pathLe a.1 b.1 = true

instance : DecidableRel scanLe := fun a b => inferInstanceAs (Decidable (_ = true))

/-- `Serde::serialize_all` on a given scan list: sort the scanned `(path, entity)` pairs by
path (`keys.sort_by(path1.cmp(path2))`, a stable sort, modelled by the stable
`insertionSort`), then emit one flat-map entry per pair whose key is `path.join(".")` (the
JSON adapter's `serialize_once`) and whose value is the stored scalar's `as_serialize`
form. -/
def serializeAllScan (w : World) (scan : List (List String × Nat)) : List (String × Val) :=
  (List.insertionSort scanLe scan).filterMap fun pe => do
    let n ← w.get? pe.2
    let c ← n.scalar
    some (String.intercalate "." pe.1, serializeScalarVal c.val)

/-- `Serde::serialize_all` with the canonical scan. -/
def serializeAll (w : World) : List (String × Val) := serializeAllScan w (keysWithTypes w)

/-- `str::split('.')` on a character list: `""` yields `[""]`, separators delimit possibly
empty segments. -/
def splitCharsOnDot : List Char → List (List Char)
  | [] => [[]]
  | c :: rest =>
      let r := splitCharsOnDot rest
      if c = '.' then [] :: r
      else
        match r with
        | [] => [[c]]
        | seg :: segs => (c :: seg) :: segs

/-- `JsonAdapter::index_map_by_de_key`: split a flat-map key on `'.'` into path segments
(`key.split('.').map(String::from)`). -/
def splitKey (k : String) : List String := (splitCharsOnDot k.data).map String.mk

/-- Look up a path in the deserialization index (the `HashMap<Vec<String>, _>` built from
the scan; paths are unique in spawned worlds, so first-match lookup models the map). -/
def lookupPath (index : List (List String × Nat)) (p : List String) : Option Nat :=
  (index.find? fun pe => pe.1 = p).map Prod.snd

/-- `SerdeScalar::set_deserialized` preceded by deserializing the raw JSON value at the
node's scalar type: a decoded value of the matching type replaces the stored one
(`serde_json` also accepts integer literals at float types); enum discriminants decode via
`EnumDiscriminant::from_name`, failing on unknown variant names; any other combination is a
decode error. -/
def setDeserialized : Val → Val → Option Val
  | .int _, .int m => some (.int m)
  | .float _, .float q => some (.float q)
  | .float _, .int m => some (.float (m : Rat))
  | .str _, .str s => some (.str s)
  | .boolean _, .boolean b => some (.boolean b)
  | .discrim names _, .str s => if s ∈ names then some (.discrim names s) else none
  | _, _ => none

/-- `TypedAdapter::deserialize_map_value` via the JSON vtable's `de` entry: read the
entity, read its `ScalarData` component, decode the raw value at the component's type and
write the decoded value back in place.  `none` covers both the decode error (propagated to
the caller as the deserialize error) and the `expect` panics on a dangling index entry
(impossible for an index built from the same world). -/
def applyEntry (w : World) (e : Nat) (v : Val) : Option World :=
  match w.get? e with
  | none => none
  | some n =>
      match n.scalar with
      | none => none
      | some c =>
          match setDeserialized c.val v with
          | none => none
          | some v' =>
              some (modifyNode w e fun node =>
                { node with scalar := some { viaWrapper := c.viaWrapper, val := v' } })

/-- `Visitor::visit_map` over a *pre-parsed* input map, where skipping an entry costs
nothing: a key that resolves in the index applies its value in place through the typed
adapter, a key that does not resolve is skipped and the walk continues.  The returned flag
is `true` for `Ok(())` and `false` when the call aborts with an error; entries applied
before an abort remain applied.  This is an idealization: the repository's only shipped
input is the JSON adapter's streaming reader, under which an unconsumed value makes the
loop error instead of continuing — that faithful behavior is `visitMapStream` below, whose
writes are a subset of this function's (it stops no later), so preservation results proved
here carry over to it. -/
def visitMap (index : List (List String × Nat)) : World → List (String × Val) →
    World × Bool
  | w, [] => (w, true)
  | w, (k, v) :: rest =>
      match lookupPath index (splitKey k) with
      | none => visitMap index w rest
      | some e =>
          match applyEntry w e v with
          | none => (w, false)
          | some w' => visitMap index w' rest

/-- `Serde::deserialize`: build the path index from the current world, then visit the input
map. -/
def deserialize (w : World) (input : List (String × Val)) : World × Bool :=
  visitMap (keysWithTypes w) w input

/-- `Visitor::visit_map` as actually driven by the shipped JSON adapter
(`Json::from_reader`, a *streaming* `serde_json` `MapAccess`): `next_key` leaves the
parser positioned before the entry's value, and only a key that resolves in the index has
its value consumed by `deserialize_map_value` — the unrecognized-key arm of the `if let`
falls through without ever calling `next_value`.  The loop then reaches `next_key` again
with the stream still before the value, which is a parse error: the call aborts right
there, the world keeps only the entries applied so far, and every later entry is dropped.
-/
def visitMapStream (index : List (List String × Nat)) : World → List (String × Val) →
    World × Bool
  | w, [] => (w, true)
  | w, (k, v) :: rest =>
      match lookupPath index (splitKey k) with
      | none => (w, false)
      | some e =>
          match applyEntry w e v with
          | none => (w, false)
          | some w' => visitMapStream index w' rest

/-- `Serde::deserialize` through the JSON adapter's streaming input. -/
def deserializeStream (w : World) (input : List (String × Val)) : World × Bool :=
  visitMapStream (keysWithTypes w) w input

/-! ## The egui editor (`src/manager/egui.rs`) -/

mutual
/-- The `ChildNodeOf`/`ChildNodeList` relationship tree that `Display::show` walks: one
tree node per config entity, carrying the entity id and the child subtrees in
`ChildNodeList` order. -/
inductive ETree where
  | mk (id : Nat) (children : ETreeList)

inductive ETreeList where
  | nil
  | cons (t : ETree) (rest : ETreeList)
end

/-- The entity at the root of a traversal tree. -/
def ETree.id : ETree → Nat
  | .mk id _ => id

/-- The generated `is_entity_relevant` predicate applied to the dependency entity: the
dependency's `ScalarData<EnumDiscriminantWrapper<D>>` value must equal the recorded
variant. -/
def isEntityRelevant (dep : Node) (variant : String) : Bool :=
  match dep.scalar with
  | some c => c.viaWrapper && (match c.val with
      | .discrim _ current => current = variant
      | _ => false)
  | none => false

mutual
/-- `show_node`: check the node's own `ConditionalRelevance` first — if the dependency
entity's predicate is false the whole subtree is skipped; otherwise an entity with a
`ScalarDraw` component (attached by the `Egui` manager to every scalar entity, including
discriminants) has its draw callback invoked, and an entity with children recurses into
them in order.  Returns the entities whose draw callback ran; `none` models the panics on
a missing node or missing dependency entity. -/
def showNode (w : World) : ETree → Option (List Nat)
  | .mk id children =>
      match w.get? id with
      | none => none
      | some n =>
          match n.relevance with
          | some (dependency, variant) =>
              match w.get? dependency with
              | none => none
              | some dep =>
                  if isEntityRelevant dep variant then
                    if n.scalar.isSome then some [id] else showNodeList w children
                  else some []
          | none =>
              if n.scalar.isSome then some [id] else showNodeList w children

def showNodeList (w : World) : ETreeList → Option (List Nat)
  | .nil => some []
  | .cons t rest =>
      match showNode w t with
      | none => none
      | some drawn =>
          match showNodeList w rest with
          | none => none
          | some drawnRest => some (drawn ++ drawnRest)
end

mutual
/-- All entity ids appearing in a traversal tree. -/
def ETree.ids : ETree → List Nat
  | .mk id children => id :: children.ids

def ETreeList.ids : ETreeList → List Nat
  | .nil => []
  | .cons t rest => t.ids ++ rest.ids
end

mutual
/-- All subtrees of a traversal tree (including the tree itself). -/
def ETree.subtrees : ETree → List ETree
  | .mk id children => .mk id children :: children.subtrees

def ETreeList.subtrees : ETreeList → List ETree
  | .nil => []
  | .cons t rest => t.subtrees ++ rest.subtrees
end

/-- The root ids of a list of traversal trees. -/
def ETreeList.roots : ETreeList → List Nat
  | .nil => []
  | .cons t rest => t.id :: rest.roots

mutual
/-- The tree is exactly the `ChildNodeList` relationship of the world: every tree node's
entity exists and its `children` component lists the ids of the tree node's children in
order. -/
def treeMatches (w : World) : ETree → Bool
  | .mk id children =>
      (match w.get? id with
       | none => false
       | some n => n.children = children.roots) && treeMatchesList w children

def treeMatchesList (w : World) : ETreeList → Bool
  | .nil => true
  | .cons t rest => treeMatches w t && treeMatchesList w rest
end

/-- The entity exists and passes its own relevance check during `show_node`: either it has
no `ConditionalRelevance`, or the dependency entity exists and the predicate holds. -/
def relevantPass (w : World) (id : Nat) : Bool :=
  match w.get? id with
  | none => false
  | some n =>
      match n.relevance with
      | none => true
      | some (dependency, variant) =>
          match w.get? dependency with
          | none => false
          | some dep => isEntityRelevant dep variant

/-- The entity carries a `ConditionalRelevance` whose dependency predicate is currently
false (the condition under which `show_node` skips the subtree). -/
def irrelevantAt (w : World) (id : Nat) : Bool :=
  match w.get? id with
  | none => false
  | some n =>
      match n.relevance with
      | none => false
      | some (dependency, variant) =>
          match w.get? dependency with
          | none => false
          | some dep => !isEntityRelevant dep variant

mutual
/-- `i` is a scalar node reached by the editor traversal of `t` outside every
relevance-skipped subtree: every node on the path from `t`'s root to `i` passes its
relevance check, composite nodes on the way have no `ScalarDraw`, and `i` itself carries
one (scalar entity). -/
def drawReach (w : World) : ETree → Nat → Bool
  | .mk id children, i =>
      relevantPass w id &&
        (match w.get? id with
         | none => false
         | some n =>
             if n.scalar.isSome then id = i
             else drawReachList w children i)

def drawReachList (w : World) : ETreeList → Nat → Bool
  | .nil, _ => false
  | .cons t rest, i => drawReach w t i || drawReachList w rest i
end

/-! ## The app-level root registry (`src/app.rs`) -/

/-- The panics of `AppExt::init_config_with`. -/
inductive Panic where
  | mismatchedManager
  | duplicateKey
  | duplicateRootType
deriving DecidableEq

/-- The app resources touched by `init_config_with`: the `ManagerType` resource (manager
`TypeId` plus the `root_keys` set), the set of `RootField<C>` resources (as the root
config types' `TypeId`s), and the ECS world.  Type ids are modelled as naturals. -/
structure AppState where
  managerId : Option Nat
  rootKeys : List String
  rootTypes : List Nat
  world : World

/-- `AppExt::init_config_with::<M, C>(key)`:
1. if a `ManagerType` resource exists, `assert!` its id equals `M` (else panic); otherwise
   insert a fresh one (empty `root_keys`) along with the manager instance;
2. `root_keys.replace(key)`: panic if the key was already present;
3. `assert!` no `RootField<C>` resource exists (else panic);
4. spawn the root tree at path `[key]`, record the `RootField<C>` resource.
(The `RootNode` marker insertion on the returned handle is not modelled as no verified
property reads it.) -/
def initConfigWith (M C : Nat) (schema : Schema) (key : String) (st : AppState) :
    Except Panic AppState :=
  match st.managerId with
  | some id =>
      if id ≠ M then .error .mismatchedManager
      else initKeyStep M C schema key st st.rootKeys
  | none => initKeyStep M C schema key st []
where
  initKeyStep (M C : Nat) (schema : Schema) (key : String) (st : AppState)
      (rootKeys : List String) : Except Panic AppState :=
    if key ∈ rootKeys then .error .duplicateKey
    else if C ∈ st.rootTypes then .error .duplicateRootType
    else
      let (w, _) := spawnWorld schema { path := [key], parent := none, dependency := none }
        st.world
      .ok { managerId := some M, rootKeys := key :: rootKeys,
            rootTypes := C :: st.rootTypes, world := w }

/-! ## The concrete schema of spec §6 / `tests/dump_load_json.rs` -/

/-- `struct Rgba(f32, f32, f32, f32)` — unnamed fields keyed by index. -/
def rgbaSchema : Schema :=
  .strukt (.cons "0" (.scalar (.float 0)) (.cons "1" (.scalar (.float 0))
    (.cons "2" (.scalar (.float 0)) (.cons "3" (.scalar (.float 0)) .nil))))

/-- `enum Color { White, Rgb(f32, f32, f32), Rgba(Rgba), Named { code: String } }`. -/
def colorSchema : Schema :=
  .enum 0 (.cons "White" .nil
    (.cons "Rgb" (.cons "0" (.scalar (.float 0)) (.cons "1" (.scalar (.float 0))
        (.cons "2" (.scalar (.float 0)) .nil)))
      (.cons "Rgba" (.cons "0" rgbaSchema .nil)
        (.cons "Named" (.cons "code" (.scalar (.str ""))  .nil) .nil))))

/-- `struct Settings { #[config(default = 3)] thickness: i32, color: Color }`. -/
def settingsSchema : Schema :=
  .strukt (.cons "thickness" (.scalar (.int 3)) (.cons "color" colorSchema .nil))

/-- The context of `init_config::<_, Settings>("ui")`. -/
def uiCtx : SpawnContext := { path := ["ui"], parent := none, dependency := none }

/-- The world after spawning the §6 schema at root key `"ui"` into an empty app. -/
def uiWorld : World := (spawnWorld settingsSchema uiCtx []).1

/-- The root spawn handle of the §6 schema. -/
def uiHandle : SpawnHandle := (spawnWorld settingsSchema uiCtx []).2

/-- The enum of §6 spawned on its own at path `["ui", "color"]` (entity 0 is the enum's
node, entity 1 its discriminant). -/
def colorCtx : SpawnContext := { path := ["ui", "color"], parent := none, dependency := none }

/-- The world of the standalone §6 enum. -/
def colorWorld : World := (spawnWorld colorSchema colorCtx []).1

/-- Its spawn handle. -/
def colorHandle : SpawnHandle := (spawnWorld colorSchema colorCtx []).2

/-- The world after the egui combo box switches the active variant from `White` to `Rgb`:
the editor writes the new discriminant through
`ScalarData<EnumDiscriminantWrapper<D>>` and bumps the node's generation
(`src/manager/egui.rs`, the `Supports<EnumDiscriminantWrapper<T>>` draw hook). -/
def colorSwitched : World :=
  bumpGeneration
    (setScalarVal colorWorld 1 (.discrim ["White", "Rgb", "Rgba", "Named"] "Rgb")) 1

/-- The `ChildNodeList` tree of `uiWorld`: root 0 (`ui`) with children 1 (`thickness`) and
2 (`color`); the enum node's children are the discriminant 3, the `Rgb` fields 4-6, the
`Rgba.0` struct node 7 (children 8-11) and `Named.code` 12. -/
def uiTree : ETree :=
  .mk 0 (.cons (.mk 1 .nil)
    (.cons (.mk 2 (.cons (.mk 3 .nil) (.cons (.mk 4 .nil) (.cons (.mk 5 .nil)
      (.cons (.mk 6 .nil)
        (.cons (.mk 7 (.cons (.mk 8 .nil) (.cons (.mk 9 .nil)
          (.cons (.mk 10 .nil) (.cons (.mk 11 .nil) .nil)))))
          (.cons (.mk 12 .nil) .nil)))))))
      .nil))

/-- The flat map given literally in spec §6 (and asserted by `tests/dump_load_json.rs`),
with enum variant fields keyed `"{path}.{Variant}:{field}"`. -/
def specLiteralMap : List (String × Val) :=
  [("ui.color.Named:code", .str ""), ("ui.color.Rgb:0", .float 0),
   ("ui.color.Rgb:1", .float 0), ("ui.color.Rgb:2", .float 0),
   ("ui.color.Rgba:0.0", .float 0), ("ui.color.Rgba:0.1", .float 0),
   ("ui.color.Rgba:0.2", .float 0), ("ui.color.Rgba:0.3", .float 0),
   ("ui.color.discrim", .str "White"), ("ui.thickness", .int 3)]

/-- Everything except the `scalar` component of a node. -/
def Node.shape (n : Node) : List String × Nat × Option (Nat × String) × List Nat :=
  (n.path, n.generation, n.relevance, n.children)

/-! ## Helper lemmas -/

mutual
theorem ChangedVal.beq_self : ∀ c : ChangedVal, c.beq c = true
  | .leaf _ => by simp [ChangedVal.beq]
  | .node cs => by simp [ChangedVal.beq, ChangedList.beq_list_self cs]
  | .tagged _ cs => by simp [ChangedVal.beq, ChangedList.beq_list_self cs]

theorem ChangedList.beq_list_self : ∀ cs : ChangedList, cs.beq cs = true
  | .nil => by simp [ChangedList.beq]
  | .cons c cs => by simp [ChangedList.beq, ChangedVal.beq_self c, ChangedList.beq_list_self cs]
end

/-- `modifyNode` at an index leaves every other index unchanged. -/
theorem get?_modifyNode_ne (w : World) (e i : Nat) (f : Node → Node) (h : i ≠ e) :
    (modifyNode w e f).get? i = w.get? i := by
  induction w generalizing e i with
  | nil => rfl
  | cons n w ih =>
      cases e with
      | zero => cases i with
          | zero => exact absurd rfl h
          | succ i => rfl
      | succ e => cases i with
          | zero => rfl
          | succ i => exact ih e i (by omega)

/-- `modifyNode` at the modified index. -/
theorem get?_modifyNode_self (w : World) (e : Nat) (f : Node → Node) :
    (modifyNode w e f).get? e = (w.get? e).map f := by
  induction w generalizing e with
  | nil => rfl
  | cons n w ih =>
      cases e with
      | zero => rfl
      | succ e => exact ih e

/-- `applyEntry` touches only the `scalar` component of its target entity. -/
theorem applyEntry_preserves_shape (w w' : World) (e : Nat) (v : Val)
    (h : applyEntry w e v = some w') (i : Nat) :
    (w'.get? i).map Node.shape = (w.get? i).map Node.shape := by
  unfold applyEntry at h
  cases hg : w.get? e with
  | none => simp only [hg] at h; exact absurd h (by simp)
  | some n =>
      simp only [hg] at h
      cases hs : n.scalar with
      | none => simp only [hs] at h; exact absurd h (by simp)
      | some c =>
          simp only [hs] at h
          cases hd : setDeserialized c.val v with
          | none => simp only [hd] at h; exact absurd h (by simp)
          | some v' =>
              simp only [hd, Option.some_inj] at h
              subst h
              by_cases hie : i = e
              · subst hie
                rw [get?_modifyNode_self, hg]
                rfl
              · rw [get?_modifyNode_ne _ _ _ _ hie]

/-- `applyEntry` leaves every other entity untouched. -/
theorem applyEntry_get?_ne (w w' : World) (e : Nat) (v : Val)
    (h : applyEntry w e v = some w') (i : Nat) (hne : i ≠ e) :
    w'.get? i = w.get? i := by
  unfold applyEntry at h
  cases hg : w.get? e with
  | none => simp only [hg] at h; exact absurd h (by simp)
  | some n =>
      simp only [hg] at h
      cases hs : n.scalar with
      | none => simp only [hs] at h; exact absurd h (by simp)
      | some c =>
          simp only [hs] at h
          cases hd : setDeserialized c.val v with
          | none => simp only [hd] at h; exact absurd h (by simp)
          | some v' =>
              simp only [hd, Option.some_inj] at h
              subst h
              rw [get?_modifyNode_ne _ _ _ _ hne]

/-- Step lemma: an unrecognized key is skipped. -/
theorem visitMap_cons_skip (index : List (List String × Nat)) (w : World) (k : String)
    (v : Val) (rest : List (String × Val)) (hl : lookupPath index (splitKey k) = none) :
    visitMap index w ((k, v) :: rest) = visitMap index w rest := by
  simp only [visitMap, hl]

/-- Step lemma: a recognized key whose value fails to decode aborts the call. -/
theorem visitMap_cons_err (index : List (List String × Nat)) (w : World) (k : String)
    (v : Val) (rest : List (String × Val)) (e : Nat)
    (hl : lookupPath index (splitKey k) = some e) (ha : applyEntry w e v = none) :
    visitMap index w ((k, v) :: rest) = (w, false) := by
  simp only [visitMap, hl, ha]

/-- Step lemma: a recognized key applies its value and continues. -/
theorem visitMap_cons_apply (index : List (List String × Nat)) (w w1 : World) (k : String)
    (v : Val) (rest : List (String × Val)) (e : Nat)
    (hl : lookupPath index (splitKey k) = some e) (ha : applyEntry w e v = some w1) :
    visitMap index w ((k, v) :: rest) = visitMap index w1 rest := by
  simp only [visitMap, hl, ha]

/-- `visitMap` touches only scalar components: the shape of every node is preserved. -/
theorem visitMap_preserves_shape (index : List (List String × Nat))
    (input : List (String × Val)) (w : World) (i : Nat) :
    ((visitMap index w input).1.get? i).map Node.shape = (w.get? i).map Node.shape := by
  induction input generalizing w with
  | nil => rfl
  | cons kv rest ih =>
      obtain ⟨k, v⟩ := kv
      cases hl : lookupPath index (splitKey k) with
      | none => rw [visitMap_cons_skip index w k v rest hl]; exact ih w
      | some e =>
          cases ha : applyEntry w e v with
          | none => rw [visitMap_cons_err index w k v rest e hl ha]
          | some w1 =>
              rw [visitMap_cons_apply index w w1 k v rest e hl ha, ih w1,
                applyEntry_preserves_shape w w1 e v ha]

/-- Every entry of the deserialization index points at a node carrying that path. -/
theorem keysWithTypes_path (w : World) (p : List String) (e : Nat)
    (h : (p, e) ∈ keysWithTypes w) : ∃ n, w.get? e = some n ∧ n.path = p := by
  unfold keysWithTypes at h
  obtain ⟨x, _, hx⟩ := List.mem_filterMap.mp h
  cases hg : w.get? x with
  | none => rw [hg] at hx; exact absurd hx (by simp)
  | some n =>
      rw [hg] at hx
      by_cases hs : n.scalar.isSome
      · simp only [hs, if_pos] at hx
        have hp : n.path = p := congrArg Prod.fst (Option.some_inj.mp hx)
        have he : x = e := congrArg Prod.snd (Option.some_inj.mp hx)
        exact ⟨n, he ▸ hg, hp⟩
      · simp [hs] at hx

/-- A successful `lookupPath` returns a member of the index with the looked-up path. -/
theorem lookupPath_mem (index : List (List String × Nat)) (p : List String) (e : Nat)
    (h : lookupPath index p = some e) : (p, e) ∈ index := by
  unfold lookupPath at h
  cases hf : index.find? fun pe => pe.1 = p with
  | none => rw [hf] at h; exact absurd h (by simp)
  | some pe =>
      rw [hf] at h
      have h1 := List.find?_some hf
      have h2 := List.mem_of_find?_eq_some hf
      simp only [Option.map_some', Option.some_inj] at h
      simp only [decide_eq_true_eq] at h1
      have hpe : pe = (p, e) := Prod.ext h1 h
      exact hpe ▸ h2

theorem charLt_irrefl (a : Char) : charLt a a = false := by
  simp [charLt]

theorem charLt_trans {a b c : Char} (h1 : charLt a b = true) (h2 : charLt b c = true) :
    charLt a c = true := by
  simp only [charLt, decide_eq_true_eq] at *
  omega

theorem charLt_asymm {a b : Char} (h1 : charLt a b = true) (h2 : charLt b a = true) : False := by
  simp only [charLt, decide_eq_true_eq] at *
  omega

theorem char_eq_of_not_lt {a b : Char} (h1 : charLt a b = false) (h2 : charLt b a = false) :
    a = b := by
  simp only [charLt, decide_eq_false_iff_not, Nat.not_lt] at h1 h2
  have h : a.toNat = b.toNat := Nat.le_antisymm h2 h1
  calc a = Char.ofNat a.toNat := (Char.ofNat_toNat a).symm
    _ = Char.ofNat b.toNat := by rw [h]
    _ = b := Char.ofNat_toNat b

theorem charsLt_cons_iff (a b : Char) (as_ bs : List Char) :
    charsLt (a :: as_) (b :: bs) = true ↔
      (charLt a b = true ∨ (a = b ∧ charsLt as_ bs = true)) := by
  simp only [charsLt]
  cases hab : charLt a b with
  | true => simp
  | false =>
      simp only [Bool.false_eq_true, if_false]
      by_cases heq : a = b
      · simp [heq]
      · simp [heq]

theorem charsLt_irrefl : ∀ l : List Char, charsLt l l = false
  | [] => rfl
  | a :: l => by
      simp only [charsLt, charLt_irrefl a, Bool.false_eq_true, if_false, if_pos rfl]
      exact charsLt_irrefl l

theorem charsLt_trans : ∀ l1 l2 l3 : List Char,
    charsLt l1 l2 = true → charsLt l2 l3 = true → charsLt l1 l3 = true
  | [], _ :: _, _ :: _, _, _ => rfl
  | [], [], _, h, _ => by simp [charsLt] at h
  | [], _ :: _, [], _, h => by simp [charsLt] at h
  | _ :: _, [], _, h, _ => by simp [charsLt] at h
  | _ :: _, _ :: _, [], _, h => by simp [charsLt] at h
  | a :: as_, b :: bs, c :: cs, h1, h2 => by
      rw [charsLt_cons_iff] at h1 h2 ⊢
      rcases h1 with h1 | ⟨rfl, h1⟩
      · rcases h2 with h2 | ⟨rfl, _⟩
        · exact Or.inl (charLt_trans h1 h2)
        · exact Or.inl h1
      · rcases h2 with h2 | ⟨rfl, h2⟩
        · exact Or.inl h2
        · exact Or.inr ⟨rfl, charsLt_trans as_ bs cs h1 h2⟩

theorem charsLt_asymm : ∀ l1 l2 : List Char,
    charsLt l1 l2 = true → charsLt l2 l1 = true → False
  | [], [], h, _ => by simp [charsLt] at h
  | [], _ :: _, _, h => by simp [charsLt] at h
  | _ :: _, [], h, _ => by simp [charsLt] at h
  | a :: as_, b :: bs, h1, h2 => by
      rw [charsLt_cons_iff] at h1 h2
      rcases h1 with h1 | ⟨rfl, h1⟩
      · rcases h2 with h2 | ⟨heq, _⟩
        · exact charLt_asymm h1 h2
        · rw [heq] at h1; rw [charLt_irrefl] at h1; exact Bool.noConfusion h1
      · rcases h2 with h2 | ⟨_, h2⟩
        · rw [charLt_irrefl] at h2; exact Bool.noConfusion h2
        · exact charsLt_asymm as_ bs h1 h2

theorem charsLt_eq_of_not : ∀ l1 l2 : List Char,
    charsLt l1 l2 = false → charsLt l2 l1 = false → l1 = l2
  | [], [], _, _ => rfl
  | [], _ :: _, h, _ => by simp [charsLt] at h
  | _ :: _, [], _, h => by simp [charsLt] at h
  | a :: as_, b :: bs, h1, h2 => by
      have hab : charLt a b = false := by
        cases hab : charLt a b with
        | false => rfl
        | true => rw [(charsLt_cons_iff a b as_ bs).mpr (Or.inl hab)] at h1; exact h1
      have hba : charLt b a = false := by
        cases hba : charLt b a with
        | false => rfl
        | true => rw [(charsLt_cons_iff b a bs as_).mpr (Or.inl hba)] at h2; exact h2
      have heq : a = b := char_eq_of_not_lt hab hba
      subst heq
      have h1' : charsLt as_ bs = false := by
        cases hh : charsLt as_ bs with
        | false => rfl
        | true => rw [(charsLt_cons_iff a a as_ bs).mpr (Or.inr ⟨rfl, hh⟩)] at h1; exact h1
      have h2' : charsLt bs as_ = false := by
        cases hh : charsLt bs as_ with
        | false => rfl
        | true => rw [(charsLt_cons_iff a a bs as_).mpr (Or.inr ⟨rfl, hh⟩)] at h2; exact h2
      rw [charsLt_eq_of_not as_ bs h1' h2']

theorem strLt_irrefl (a : String) : strLt a a = false := charsLt_irrefl a.data

theorem strLt_trans {a b c : String} (h1 : strLt a b = true) (h2 : strLt b c = true) :
    strLt a c = true := charsLt_trans a.data b.data c.data h1 h2

theorem strLt_asymm {a b : String} (h1 : strLt a b = true) (h2 : strLt b a = true) : False :=
  charsLt_asymm a.data b.data h1 h2

theorem str_eq_of_not_lt {a b : String} (h1 : strLt a b = false) (h2 : strLt b a = false) :
    a = b := String.ext (charsLt_eq_of_not a.data b.data h1 h2)

theorem pathLe_cons_iff (a b : String) (as_ bs : List String) :
    pathLe (a :: as_) (b :: bs) = true ↔
      (strLt a b = true ∨ (a = b ∧ pathLe as_ bs = true)) := by
  simp only [pathLe]
  cases hab : strLt a b with
  | true => simp
  | false =>
      simp only [Bool.false_eq_true, if_false]
      by_cases heq : a = b
      · simp [heq]
      · simp [heq]

theorem pathLe_total : ∀ p q : List String, pathLe p q = true ∨ pathLe q p = true
  | [], _ => Or.inl rfl
  | _ :: _, [] => Or.inr rfl
  | a :: as_, b :: bs => by
      cases hab : strLt a b with
      | true => exact Or.inl ((pathLe_cons_iff a b as_ bs).mpr (Or.inl hab))
      | false =>
          cases hba : strLt b a with
          | true => exact Or.inr ((pathLe_cons_iff b a bs as_).mpr (Or.inl hba))
          | false =>
              have heq : a = b := str_eq_of_not_lt hab hba
              subst heq
              rcases pathLe_total as_ bs with h | h
              · exact Or.inl ((pathLe_cons_iff a a as_ bs).mpr (Or.inr ⟨rfl, h⟩))
              · exact Or.inr ((pathLe_cons_iff a a bs as_).mpr (Or.inr ⟨rfl, h⟩))

theorem pathLe_trans : ∀ p q r : List String,
    pathLe p q = true → pathLe q r = true → pathLe p r = true
  | [], _, _, _, _ => rfl
  | _ :: _, [], _, h, _ => by simp [pathLe] at h
  | _ :: _, _ :: _, [], _, h => by simp [pathLe] at h
  | a :: as_, b :: bs, c :: cs, h1, h2 => by
      rw [pathLe_cons_iff] at h1 h2 ⊢
      rcases h1 with h1 | ⟨rfl, h1⟩
      · rcases h2 with h2 | ⟨rfl, _⟩
        · exact Or.inl (strLt_trans h1 h2)
        · exact Or.inl h1
      · rcases h2 with h2 | ⟨rfl, h2⟩
        · exact Or.inl h2
        · exact Or.inr ⟨rfl, pathLe_trans as_ bs cs h1 h2⟩

theorem pathLe_antisymm : ∀ p q : List String,
    pathLe p q = true → pathLe q p = true → p = q
  | [], [], _, _ => rfl
  | [], _ :: _, _, h => by simp [pathLe] at h
  | _ :: _, [], h, _ => by simp [pathLe] at h
  | a :: as_, b :: bs, h1, h2 => by
      rw [pathLe_cons_iff] at h1 h2
      rcases h1 with h1 | ⟨rfl, h1⟩
      · rcases h2 with h2 | ⟨heq, _⟩
        · exact (strLt_asymm h1 h2).elim
        · rw [heq] at h1; rw [strLt_irrefl] at h1; exact Bool.noConfusion h1
      · rcases h2 with h2 | ⟨_, h2⟩
        · rw [strLt_irrefl] at h2; exact Bool.noConfusion h2
        · rw [pathLe_antisymm as_ bs h1 h2]

theorem get?_isSome_iff (w : World) (e : Nat) : (w.get? e).isSome = true ↔ e < w.length := by
  induction w generalizing e with
  | nil => simp [List.get?]
  | cons n w ih =>
      cases e with
      | zero => simp [List.get?]
      | succ e => simpa [List.get?, Nat.succ_lt_succ_iff] using ih e

theorem modifyNode_length (w : World) (e : Nat) (f : Node → Node) :
    (modifyNode w e f).length = w.length := by
  induction w generalizing e with
  | nil => rfl
  | cons n w ih =>
      cases e with
      | zero => rfl
      | succ e => simpa [modifyNode] using ih e

theorem addChild_length (w : World) (p : Option Nat) (c : Nat) :
    (addChild w p c).length = w.length := by
  cases p with
  | none => rfl
  | some p => exact modifyNode_length w p _

theorem addChild_core (w : World) (p : Option Nat) (c : Nat) (i : Nat) :
    ((addChild w p c).get? i).map Node.core = (w.get? i).map Node.core := by
  cases p with
  | none => rfl
  | some p =>
      unfold addChild
      by_cases hip : i = p
      · subst hip
        rw [get?_modifyNode_self]
        cases w.get? i <;> rfl
      · rw [get?_modifyNode_ne _ _ _ _ hip]

theorem get?_append_lt (w : World) (l : List Node) (i : Nat) (h : i < w.length) :
    (w ++ l).get? i = w.get? i := by
  induction w generalizing i with
  | nil => exact absurd h (Nat.not_lt_zero i)
  | cons n w ih =>
      cases i with
      | zero => rfl
      | succ i => exact ih i (Nat.lt_of_succ_lt_succ h)

theorem SpawnInv.comp {w0 w1 w2 : World} {r1 r2 : List Nat} (h1 : SpawnInv w0 w1 r1)
    (h2 : SpawnInv w1 w2 r2) : SpawnInv w0 w2 (r1 ++ r2) := by
  obtain ⟨hl1, hc1, hb1, hn1⟩ := h1
  obtain ⟨hl2, hc2, hb2, hn2⟩ := h2
  refine ⟨Nat.le_trans hl1 hl2, ?_, ?_, ?_⟩
  · intro i hi
    rw [hc2 i (Nat.lt_of_lt_of_le hi hl1), hc1 i hi]
  · intro x hx
    rcases List.mem_append.mp hx with hx | hx
    · obtain ⟨ha, hb⟩ := hb1 x hx
      exact ⟨ha, Nat.lt_of_lt_of_le hb hl2⟩
    · obtain ⟨ha, hb⟩ := hb2 x hx
      exact ⟨Nat.le_trans hl1 ha, hb⟩
  · rw [List.nodup_append]
    refine ⟨hn1, hn2, ?_⟩
    intro x hx1 hx2
    obtain ⟨_, hb⟩ := hb1 x hx1
    obtain ⟨ha, _⟩ := hb2 x hx2
    exact absurd hb (Nat.not_lt.mpr ha)

/-- A single freshly appended node (plus the `ChildNodeOf` insertion) is a spawn step. -/
theorem SpawnInv.single (w0 : World) (ctx : SpawnContext) (n : Node) :
    SpawnInv w0 (addChild (w0 ++ [n]) ctx.parent w0.length) [w0.length] := by
  refine ⟨?_, ?_, ?_, List.nodup_singleton _⟩
  · rw [addChild_length, List.length_append]
    exact Nat.le_add_right _ _
  · intro i hi
    rw [addChild_core, get?_append_lt w0 [n] i hi]
  · intro x hx
    have : x = w0.length := List.mem_singleton.mp hx
    subst this
    constructor
    · exact Nat.le_refl _
    · rw [addChild_length, List.length_append]
      simp

mutual
theorem shaped_mono : ∀ (s : Schema) (h : SpawnHandle) (w w' : World),
    w.length ≤ w'.length → shaped w s h = true → shaped w' s h = true
  | .scalar d, .leaf e, w, w', hle, hs => by
      unfold shaped at hs ⊢
      rw [get?_isSome_iff] at hs ⊢
      exact Nat.lt_of_lt_of_le hs hle
  | .strukt fields, .strukt n hs_, w, w', hle, hs => by
      unfold shaped at hs ⊢
      exact shapedFields_mono fields hs_ w w' hle hs
  | .enum dv vs, .henum n discrim vhs, w, w', hle, hs => by
      unfold shaped at hs ⊢
      rw [get?_isSome_iff] at hs ⊢
      exact Nat.lt_of_lt_of_le hs hle
  | .scalar _, .strukt .., _, _, _, hs => by unfold shaped at hs; exact Bool.noConfusion hs
  | .scalar _, .henum .., _, _, _, hs => by unfold shaped at hs; exact Bool.noConfusion hs
  | .strukt _, .leaf _, _, _, _, hs => by unfold shaped at hs; exact Bool.noConfusion hs
  | .strukt _, .henum .., _, _, _, hs => by unfold shaped at hs; exact Bool.noConfusion hs
  | .enum _ _, .leaf _, _, _, _, hs => by unfold shaped at hs; exact Bool.noConfusion hs
  | .enum _ _, .strukt .., _, _, _, hs => by unfold shaped at hs; exact Bool.noConfusion hs

theorem shapedFields_mono : ∀ (fields : Fields) (hs_ : Handles) (w w' : World),
    w.length ≤ w'.length → shapedFields w fields hs_ = true → shapedFields w' fields hs_ = true
  | .nil, .nil, _, _, _, _ => rfl
  | .cons k s fsRest, .cons h hsRest, w, w', hle, hsf => by
      unfold shapedFields at hsf ⊢
      rcases Bool.and_eq_true .. ▸ hsf with ⟨h1, h2⟩
      rw [shaped_mono s h w w' hle h1, shapedFields_mono fsRest hsRest w w' hle h2]
      rfl
  | .nil, .cons .., _, _, _, hsf => by unfold shapedFields at hsf; exact Bool.noConfusion hsf
  | .cons .., .nil, _, _, _, hsf => by unfold shapedFields at hsf; exact Bool.noConfusion hsf
end

theorem spawnScalar_inv (w0 : World) (ctx : SpawnContext) (comp : ScalarComp) :
    SpawnInv w0 (spawnScalar w0 ctx comp).1 [(spawnScalar w0 ctx comp).2] :=
  SpawnInv.single w0 ctx _

theorem spawnCompositeNode_inv (w0 : World) (ctx : SpawnContext) :
    SpawnInv w0 (spawnCompositeNode w0 ctx).1 [(spawnCompositeNode w0 ctx).2] :=
  SpawnInv.single w0 ctx _

mutual
/-- `spawn_world` establishes the spawn invariant and leaves the tree `shaped`. -/
theorem spawnWorld_inv : ∀ (s : Schema) (ctx : SpawnContext) (w0 : World),
    SpawnInv w0 (spawnWorld s ctx w0).1 (spawnWorld s ctx w0).2.refs ∧
    shaped (spawnWorld s ctx w0).1 s (spawnWorld s ctx w0).2 = true
  | .scalar d, ctx, w0 => by
      refine ⟨spawnScalar_inv w0 ctx { viaWrapper := false, val := d }, ?_⟩
      show ((spawnScalar w0 ctx { viaWrapper := false, val := d }).1.get?
        (spawnScalar w0 ctx { viaWrapper := false, val := d }).2).isSome = true
      rw [get?_isSome_iff]
      exact ((spawnScalar_inv w0 ctx { viaWrapper := false, val := d }).2.2.1 _
        (List.mem_singleton.mpr rfl)).2
  | .strukt fields, ctx, w0 => by
      have h1 := spawnCompositeNode_inv w0 ctx
      have h2 := spawnFields_inv fields none (spawnCompositeNode w0 ctx).2 ctx
        (spawnCompositeNode w0 ctx).1
      exact ⟨SpawnInv.comp h1 h2.1, h2.2⟩
  | .enum dv variants, ctx, w0 => by
      have h1 := spawnCompositeNode_inv w0 ctx
      have h2 := spawnScalar_inv (spawnCompositeNode w0 ctx).1
        (ctx.join ["discrim"] (some (spawnCompositeNode w0 ctx).2))
        { viaWrapper := true,
          val := .discrim variants.names (variants.names.getD dv "") }
      have h3 := spawnVariantList_inv variants (spawnCompositeNode w0 ctx).2
        (spawnScalar (spawnCompositeNode w0 ctx).1
          (ctx.join ["discrim"] (some (spawnCompositeNode w0 ctx).2))
          { viaWrapper := true,
            val := .discrim variants.names (variants.names.getD dv "") }).2 ctx
        (spawnScalar (spawnCompositeNode w0 ctx).1
          (ctx.join ["discrim"] (some (spawnCompositeNode w0 ctx).2))
          { viaWrapper := true,
            val := .discrim variants.names (variants.names.getD dv "") }).1
      refine ⟨SpawnInv.comp h1 (SpawnInv.comp h2 h3), ?_⟩
      show ((spawnVariantList variants (spawnCompositeNode w0 ctx).2 _ ctx _).1.get? _).isSome = true
      rw [get?_isSome_iff]
      have hb := (h2.2.2.1 _ (List.mem_singleton.mpr rfl)).2
      exact Nat.lt_of_lt_of_le hb h3.1

theorem spawnFields_inv : ∀ (fields : Fields) (inVariant : Option (String × Nat))
    (parent : Nat) (ctx : SpawnContext) (w0 : World),
    SpawnInv w0 (spawnFields fields inVariant parent ctx w0).1
      (spawnFields fields inVariant parent ctx w0).2.refs ∧
    shapedFields (spawnFields fields inVariant parent ctx w0).1 fields
      (spawnFields fields inVariant parent ctx w0).2 = true
  | .nil, inVariant, parent, ctx, w0 => by
      refine ⟨⟨Nat.le_refl _, fun i _ => rfl, fun x hx => absurd hx (List.not_mem_nil x),
        List.nodup_nil⟩, rfl⟩
  | .cons key s rest, inVariant, parent, ctx, w0 => by
      have h1 := spawnWorld_inv s (fieldCtx ctx key inVariant parent) w0
      have h2 := spawnFields_inv rest inVariant parent ctx
        (spawnWorld s (fieldCtx ctx key inVariant parent) w0).1
      refine ⟨SpawnInv.comp h1.1 h2.1, ?_⟩
      show (shaped (spawnFields rest inVariant parent ctx
            (spawnWorld s (fieldCtx ctx key inVariant parent) w0).1).1 s
            (spawnWorld s (fieldCtx ctx key inVariant parent) w0).2 &&
          shapedFields (spawnFields rest inVariant parent ctx
            (spawnWorld s (fieldCtx ctx key inVariant parent) w0).1).1 rest
            (spawnFields rest inVariant parent ctx
              (spawnWorld s (fieldCtx ctx key inVariant parent) w0).1).2) = true
      rw [shaped_mono s _ _ _ h2.1.1 h1.2, h2.2]
      rfl

theorem spawnVariantList_inv : ∀ (variants : Variants) (parent discrimE : Nat)
    (ctx : SpawnContext) (w0 : World),
    SpawnInv w0 (spawnVariantList variants parent discrimE ctx w0).1
      (spawnVariantList variants parent discrimE ctx w0).2.refs
  | .nil, parent, discrimE, ctx, w0 =>
      ⟨Nat.le_refl _, fun i _ => rfl, fun x hx => absurd hx (List.not_mem_nil x),
        List.nodup_nil⟩
  | .cons name fields rest, parent, discrimE, ctx, w0 => by
      have h1 := spawnFields_inv fields (some (name, discrimE)) parent ctx w0
      have h2 := spawnVariantList_inv rest parent discrimE ctx
        (spawnFields fields (some (name, discrimE)) parent ctx w0).1
      exact SpawnInv.comp h1.1 h2
end

theorem bumpGeneration_length (w : World) (e : Nat) :
    (bumpGeneration w e).length = w.length := modifyNode_length w e _

theorem Fields.enumFree_get? : ∀ (fields : Fields) (i : Nat) (k : String) (s : Schema),
    Fields.enumFree fields = true → fields.get? i = some (k, s) → s.enumFree = true
  | .cons key s0 rest, 0, k, s, hef, hg => by
      unfold Fields.enumFree at hef
      rcases Bool.and_eq_true .. ▸ hef with ⟨h1, _⟩
      simp only [Fields.get?, Option.some_inj, Prod.mk.injEq] at hg
      obtain ⟨_, hs0⟩ := hg
      exact hs0 ▸ h1
  | .cons key s0 rest, i + 1, k, s, hef, hg => by
      unfold Fields.enumFree at hef
      rcases Bool.and_eq_true .. ▸ hef with ⟨_, h2⟩
      exact Fields.enumFree_get? rest i k s h2 hg
  | .nil, i, k, s, _, hg => Option.noConfusion hg

theorem shapedFields_get? : ∀ (fields : Fields) (hs_ : Handles) (w : World) (i : Nat)
    (k : String) (s : Schema) (h : SpawnHandle),
    shapedFields w fields hs_ = true → fields.get? i = some (k, s) →
    hs_.get? i = some h → shaped w s h = true
  | .cons key s0 fsRest, .cons h0 hsRest, w, 0, k, s, h, hsf, hfg, hhg => by
      unfold shapedFields at hsf
      rcases Bool.and_eq_true .. ▸ hsf with ⟨h1, _⟩
      simp only [Fields.get?, Option.some_inj, Prod.mk.injEq] at hfg
      simp only [Handles.get?, Option.some_inj] at hhg
      obtain ⟨_, hs0⟩ := hfg
      exact hs0 ▸ hhg ▸ h1
  | .cons key s0 fsRest, .cons h0 hsRest, w, i + 1, k, s, h, hsf, hfg, hhg => by
      unfold shapedFields at hsf
      rcases Bool.and_eq_true .. ▸ hsf with ⟨_, h2⟩
      exact shapedFields_get? fsRest hsRest w i k s h h2 hfg hhg
  | .nil, _, _, _, _, _, _, _, hfg, _ => Option.noConfusion hfg
  | .cons .., .nil, _, _, _, _, _, _, _, hhg => Option.noConfusion hhg

mutual
/-- On an enum-free, fully spawned tree the generated change query resolves. -/
theorem changed_isSome : ∀ (s : Schema) (h : SpawnHandle) (w : World),
    s.enumFree = true → shaped w s h = true → (changed w s h).isSome = true
  | .scalar d, .leaf e, w, _, hsh => by
      unfold shaped at hsh
      cases hg : w.get? e with
      | none => rw [hg] at hsh; exact Bool.noConfusion hsh
      | some n =>
          unfold changed
          rw [hg]
          rfl
  | .strukt fields, .strukt n hs_, w, hef, hsh => by
      have h1 := changedFields_isSome fields hs_ w hef hsh
      cases hcf : changedFields w fields hs_ with
      | none => rw [hcf] at h1; exact Bool.noConfusion h1
      | some cs =>
          unfold changed
          rw [hcf]
          rfl
  | .enum dv vs, .leaf _, _, hef, _ => Bool.noConfusion hef
  | .enum dv vs, .strukt .., _, hef, _ => Bool.noConfusion hef
  | .enum dv vs, .henum .., _, hef, _ => Bool.noConfusion hef
  | .scalar _, .strukt .., _, _, hsh => by unfold shaped at hsh; exact Bool.noConfusion hsh
  | .scalar _, .henum .., _, _, hsh => by unfold shaped at hsh; exact Bool.noConfusion hsh
  | .strukt _, .leaf _, _, _, hsh => by unfold shaped at hsh; exact Bool.noConfusion hsh
  | .strukt _, .henum .., _, _, hsh => by unfold shaped at hsh; exact Bool.noConfusion hsh

theorem changedFields_isSome : ∀ (fields : Fields) (hs_ : Handles) (w : World),
    Fields.enumFree fields = true → shapedFields w fields hs_ = true →
    (changedFields w fields hs_).isSome = true
  | .nil, .nil, w, _, _ => rfl
  | .cons k s fsRest, .cons h hsRest, w, hef, hsh => by
      unfold Fields.enumFree at hef
      unfold shapedFields at hsh
      rcases Bool.and_eq_true .. ▸ hef with ⟨he1, he2⟩
      rcases Bool.and_eq_true .. ▸ hsh with ⟨hs1, hs2⟩
      have h1 := changed_isSome s h w he1 hs1
      have h2 := changedFields_isSome fsRest hsRest w he2 hs2
      cases hc : changed w s h with
      | none => rw [hc] at h1; exact Bool.noConfusion h1
      | some c =>
          cases hcf : changedFields w fsRest hsRest with
          | none => rw [hcf] at h2; exact Bool.noConfusion h2
          | some cs =>
              unfold changedFields
              rw [hc, hcf]
              rfl
  | .nil, .cons .., _, _, hsh => by unfold shapedFields at hsh; exact Bool.noConfusion hsh
  | .cons .., .nil, _, _, hsh => by unfold shapedFields at hsh; exact Bool.noConfusion hsh
end

/-- The struct witness list returned by `changedFields` holds, at each field index, that
field's own `changed` value. -/
theorem changedFields_get? : ∀ (fields : Fields) (hs_ : Handles) (w : World)
    (cs : ChangedList) (i : Nat) (k : String) (si : Schema) (hi : SpawnHandle),
    changedFields w fields hs_ = some cs → fields.get? i = some (k, si) →
    hs_.get? i = some hi → cs.get? i = changed w si hi
  | .cons key s fsRest, .cons h hsRest, w, cs, 0, k, si, hi, hcf, hfg, hhg => by
      simp only [Fields.get?, Option.some_inj, Prod.mk.injEq] at hfg
      simp only [Handles.get?, Option.some_inj] at hhg
      obtain ⟨_, hseq⟩ := hfg
      subst hseq; subst hhg
      unfold changedFields at hcf
      cases hc : changed w s h with
      | none => simp only [hc] at hcf; exact absurd hcf (by simp)
      | some c =>
          simp only [hc] at hcf
          cases hcf2 : changedFields w fsRest hsRest with
          | none => simp only [hcf2] at hcf; exact absurd hcf (by simp)
          | some cs0 =>
              simp only [hcf2, Option.some_inj] at hcf
              subst hcf
              rfl
  | .cons key s fsRest, .cons h hsRest, w, cs, i + 1, k, si, hi, hcf, hfg, hhg => by
      unfold changedFields at hcf
      cases hc : changed w s h with
      | none => simp only [hc] at hcf; exact absurd hcf (by simp)
      | some c =>
          simp only [hc] at hcf
          cases hcf2 : changedFields w fsRest hsRest with
          | none => simp only [hcf2] at hcf; exact absurd hcf (by simp)
          | some cs0 =>
              simp only [hcf2, Option.some_inj] at hcf
              subst hcf
              exact changedFields_get? fsRest hsRest w cs0 i k si hi hcf2 hfg hhg
  | .nil, _, _, _, _, _, _, _, _, hfg, _ => Option.noConfusion hfg
  | .cons .., .nil, _, _, _, _, _, _, hcf, _, _ => Option.noConfusion hcf

/-- `subAt` composes along concatenation of position lists. -/
theorem subAt_append_some : ∀ (q : List Nat) (s : Schema) (h : SpawnHandle)
    (r : List Nat) (s' : Schema) (h' : SpawnHandle),
    subAt s h q = some (s', h') → subAt s h (q ++ r) = subAt s' h' r
  | [], s, h, r, s', h', hq => by
      simp only [subAt] at hq
      have heq := Option.some.inj hq
      rw [show s' = s from (congrArg Prod.fst heq).symm,
          show h' = h from (congrArg Prod.snd heq).symm]
      rfl
  | i :: q', .strukt fields, .strukt n hs_, r, s', h', hq => by
      cases hfg : fields.get? i with
      | none =>
          simp only [subAt, hfg] at hq
          exact Option.noConfusion hq
      | some p =>
          obtain ⟨k, si⟩ := p
          cases hhg : hs_.get? i with
          | none =>
              simp only [subAt, hfg, hhg] at hq
              exact Option.noConfusion hq
          | some hi =>
              simp only [subAt, hfg, hhg] at hq
              have hstep : subAt (.strukt fields) (.strukt n hs_) ((i :: q') ++ r) =
                  subAt si hi (q' ++ r) := by
                simp only [List.cons_append, subAt, hfg, hhg]
                rfl
              rw [hstep]
              exact subAt_append_some q' si hi r s' h' hq
  | _ :: _, .scalar _, .leaf _, _, _, _, hq => Option.noConfusion hq
  | _ :: _, .scalar _, .strukt .., _, _, _, hq => Option.noConfusion hq
  | _ :: _, .scalar _, .henum .., _, _, _, hq => Option.noConfusion hq
  | _ :: _, .strukt _, .leaf _, _, _, _, hq => Option.noConfusion hq
  | _ :: _, .strukt _, .henum .., _, _, _, hq => Option.noConfusion hq
  | _ :: _, .enum _ _, .leaf _, _, _, _, hq => Option.noConfusion hq
  | _ :: _, .enum _ _, .strukt .., _, _, _, hq => Option.noConfusion hq
  | _ :: _, .enum _ _, .henum .., _, _, _, hq => Option.noConfusion hq

/-- Descending a shaped, enum-free tree yields a shaped, enum-free subtree. -/
theorem subAt_pres : ∀ (q : List Nat) (s : Schema) (h : SpawnHandle) (w : World)
    (s' : Schema) (h' : SpawnHandle), subAt s h q = some (s', h') →
    s.enumFree = true → shaped w s h = true →
    s'.enumFree = true ∧ shaped w s' h' = true
  | [], s, h, w, s', h', hq, hef, hsh => by
      simp only [subAt] at hq
      have heq := Option.some.inj hq
      rw [show s' = s from (congrArg Prod.fst heq).symm,
          show h' = h from (congrArg Prod.snd heq).symm]
      exact ⟨hef, hsh⟩
  | i :: q', .strukt fields, .strukt n hs_, w, s', h', hq, hef, hsh => by
      cases hfg : fields.get? i with
      | none =>
          simp only [subAt, hfg] at hq
          exact Option.noConfusion hq
      | some p =>
          obtain ⟨k, si⟩ := p
          cases hhg : hs_.get? i with
          | none =>
              simp only [subAt, hfg, hhg] at hq
              exact Option.noConfusion hq
          | some hi =>
              simp only [subAt, hfg, hhg] at hq
              exact subAt_pres q' si hi w s' h' hq
                (Fields.enumFree_get? fields i k si hef hfg)
                (shapedFields_get? fields hs_ w i k si hi hsh hfg hhg)
  | _ :: _, .scalar _, .leaf _, _, _, _, hq, _, _ => Option.noConfusion hq
  | _ :: _, .scalar _, .strukt .., _, _, _, hq, _, _ => Option.noConfusion hq
  | _ :: _, .scalar _, .henum .., _, _, _, hq, _, _ => Option.noConfusion hq
  | _ :: _, .strukt _, .leaf _, _, _, _, hq, _, _ => Option.noConfusion hq
  | _ :: _, .strukt _, .henum .., _, _, _, hq, _, _ => Option.noConfusion hq
  | _ :: _, .enum _ _, .leaf _, _, _, _, hq, _, _ => Option.noConfusion hq
  | _ :: _, .enum _ _, .strukt .., _, _, _, hq, _, _ => Option.noConfusion hq
  | _ :: _, .enum _ _, .henum .., _, _, _, hq, _, _ => Option.noConfusion hq

/-- Bumping the generation of a scalar leaf changes the `changed` witness of every
enum-free composite that contains it (the leaf itself included, at position `[]`). -/
theorem changed_bump_ne : ∀ (pos : List Nat) (s : Schema) (h : SpawnHandle) (w : World)
    (e : Nat) (d : Val), s.enumFree = true → shaped w s h = true →
    subAt s h pos = some (.scalar d, .leaf e) →
    changed (bumpGeneration w e) s h ≠ changed w s h
  | [], s, h, w, e, d, hef, hsh, hsub => by
      simp only [subAt] at hsub
      have heq := Option.some.inj hsub
      rw [show s = .scalar d from congrArg Prod.fst heq,
          show h = .leaf e from congrArg Prod.snd heq] at hsh ⊢
      unfold shaped at hsh
      cases hg : w.get? e with
      | none => rw [hg] at hsh; exact Bool.noConfusion hsh
      | some n =>
          have hb : (bumpGeneration w e).get? e =
              some { n with generation := n.generation + 1 } := by
            unfold bumpGeneration
            rw [get?_modifyNode_self, hg]
            rfl
          intro hcon
          simp only [changed, hb, hg] at hcon
          exact Nat.succ_ne_self n.generation (ChangedVal.leaf.inj (Option.some.inj hcon))
  | i :: rest, .strukt fields, .strukt n hs_, w, e, d, hef, hsh, hsub => by
      cases hfg : fields.get? i with
      | none =>
          simp only [subAt, hfg] at hsub
          exact Option.noConfusion hsub
      | some p =>
          obtain ⟨k, si⟩ := p
          cases hhg : hs_.get? i with
          | none =>
              simp only [subAt, hfg, hhg] at hsub
              exact Option.noConfusion hsub
          | some hi =>
              simp only [subAt, hfg, hhg] at hsub
              have hef_i := Fields.enumFree_get? fields i k si hef hfg
              have hsh_i := shapedFields_get? fields hs_ w i k si hi hsh hfg hhg
              have hne := changed_bump_ne rest si hi w e d hef_i hsh_i hsub
              have hsh_b : shapedFields (bumpGeneration w e) fields hs_ = true :=
                shapedFields_mono fields hs_ w _
                  (Nat.le_of_eq (bumpGeneration_length w e).symm) hsh
              have h1 := changedFields_isSome fields hs_ w hef hsh
              have h2 := changedFields_isSome fields hs_ (bumpGeneration w e) hef hsh_b
              cases hcf : changedFields w fields hs_ with
              | none => rw [hcf] at h1; exact Bool.noConfusion h1
              | some cs =>
              cases hcfb : changedFields (bumpGeneration w e) fields hs_ with
              | none => rw [hcfb] at h2; exact Bool.noConfusion h2
              | some cs' =>
                  intro hcon
                  simp only [changed, hcf, hcfb] at hcon
                  have hcs : cs' = cs :=
                    ChangedVal.node.inj (Option.some.inj hcon)
                  have hg1 := changedFields_get? fields hs_ w cs i k si hi hcf hfg hhg
                  have hg2 := changedFields_get? fields hs_ (bumpGeneration w e) cs' i k si
                    hi hcfb hfg hhg
                  rw [hcs] at hg2
                  exact hne (hg2.symm.trans hg1)
  | _ :: _, .scalar _, .leaf _, _, _, _, _, _, hsub => Option.noConfusion hsub
  | _ :: _, .scalar _, .strukt .., _, _, _, _, _, hsub => Option.noConfusion hsub
  | _ :: _, .scalar _, .henum .., _, _, _, _, _, hsub => Option.noConfusion hsub
  | _ :: _, .strukt _, .leaf _, _, _, _, _, _, hsub => Option.noConfusion hsub
  | _ :: _, .strukt _, .henum .., _, _, _, _, _, hsub => Option.noConfusion hsub
  | _ :: _, .enum _ _, .leaf _, _, _, _, _, _, hsub => Option.noConfusion hsub
  | _ :: _, .enum _ _, .strukt .., _, _, _, _, _, hsub => Option.noConfusion hsub
  | _ :: _, .enum _ _, .henum .., _, _, _, _, _, hsub => Option.noConfusion hsub

/-! ## Claim theorems -/

/-- **C1.** Spawning the §6 schema at root key `"ui"` with all default values and
serializing through the codec backend does *not* produce the literal flat map of the spec:
`EnumInput::new` makes every enum variant field two separate path segments
(`["Rgb", "0"]`), and the JSON adapter joins *all* segments with `'.'`
(`path.join(".")`), so the emitted keys are `"ui.color.Rgb.0"`, `"ui.color.Named.code"`,
... instead of the `"ui.color.Rgb:0"`, `"ui.color.Named:code"`, ... required by the spec
and by the repository's own test `tests/dump_load_json.rs`. -/
theorem c1_serialize_all_uses_dot_keys :
    serializeAll uiWorld =
      [("ui.color.Named.code", .str ""), ("ui.color.Rgb.0", .float 0),
       ("ui.color.Rgb.1", .float 0), ("ui.color.Rgb.2", .float 0),
       ("ui.color.Rgba.0.0", .float 0), ("ui.color.Rgba.0.1", .float 0),
       ("ui.color.Rgba.0.2", .float 0), ("ui.color.Rgba.0.3", .float 0),
       ("ui.color.discrim", .str "White"), ("ui.thickness", .int 3)] ∧
    serializeAll uiWorld ≠ specLiteralMap := by
  have heq : serializeAll uiWorld =
      [("ui.color.Named.code", .str ""), ("ui.color.Rgb.0", .float 0),
       ("ui.color.Rgb.1", .float 0), ("ui.color.Rgb.2", .float 0),
       ("ui.color.Rgba.0.0", .float 0), ("ui.color.Rgba.0.1", .float 0),
       ("ui.color.Rgba.0.2", .float 0), ("ui.color.Rgba.0.3", .float 0),
       ("ui.color.discrim", .str "White"), ("ui.thickness", .int 3)] := by rfl
  refine ⟨heq, ?_⟩
  rw [heq]
  decide

/-- **C2.** The claim (and the spec) says an unrecognized key during `Serde::deserialize`
is silently ignored and the call still succeeds.  In the code, `Visitor::visit_map` skips
such a key *without consuming its value*, so under the shipped JSON adapter's streaming
map access the very next `next_key` is a parse error: on the §6 tree, deserializing
`nonsense: 7, ui.thickness: 5` fails and leaves the world untouched — the recognized
`ui.thickness` entry after the unknown key is dropped — while the same input without the
unknown key succeeds and writes thickness 5 (generation untouched). -/
theorem c2_unknown_key_aborts :
    deserializeStream uiWorld [("nonsense", .int 7), ("ui.thickness", .int 5)] =
      (uiWorld, false) ∧
    (deserializeStream uiWorld [("ui.thickness", .int 5)]).2 = true ∧
    ((deserializeStream uiWorld [("ui.thickness", .int 5)]).1.get? 1).map Node.core =
      some (["ui", "thickness"], 1, some { viaWrapper := false, val := .int 5 }, none) :=
  ⟨rfl, rfl, rfl⟩

/-- **C6.** `Serde::deserialize` never bumps the change-detection counter: after any
deserialization call (in particular one that successfully applied a loaded value to a
scalar node's `ScalarData`), every node's `ConfigNode.generation` equals its value before
the call — the typed adapter's `de` function writes only through
`entry.0.set_deserialized(value)` on the `ScalarData` component. -/
theorem c6_deserialize_preserves_generation (w : World) (input : List (String × Val))
    (i : Nat) :
    ((deserialize w input).1.get? i).map Node.generation = (w.get? i).map Node.generation := by
  have h := visitMap_preserves_shape (keysWithTypes w) input w i
  unfold deserialize
  cases hg : (visitMap (keysWithTypes w) w input).1.get? i with
  | none =>
      rw [hg] at h
      cases hg' : w.get? i with
      | none => rfl
      | some n => rw [hg'] at h; simp [Node.shape] at h
  | some n =>
      rw [hg] at h
      cases hg' : w.get? i with
      | none =>
          rw [hg'] at h
          simp only [Option.map_some', Option.map_none'] at h
          exact Option.noConfusion h
      | some n' =>
          rw [hg'] at h
          simp only [Option.map_some', Option.some_inj, Node.shape, Prod.mk.injEq] at h
          simp [h.2.1]

/-- **C9.** Keys absent from the input leave the stored value untouched: a scalar node
whose path is not the split form of any input key is byte-for-byte unchanged by
`Serde::deserialize` (in particular its `ScalarData` value is retained), whether or not
the call succeeds. -/
theorem c9_missing_keys_retain_value (w : World) (input : List (String × Val)) (e : Nat)
    (n : Node) (hn : w.get? e = some n)
    (hmiss : ∀ kv ∈ input, splitKey kv.1 ≠ n.path) :
    (deserialize w input).1.get? e = some n := by
  unfold deserialize
  have hidx : ∀ p e', (p, e') ∈ keysWithTypes w → ∃ n', w.get? e' = some n' ∧ n'.path = p :=
    fun p e' h => keysWithTypes_path w p e' h
  generalize hIdx : keysWithTypes w = index at hidx
  clear hIdx
  induction input generalizing w n with
  | nil => exact hn
  | cons kv rest ih =>
      obtain ⟨k, v⟩ := kv
      cases hl : lookupPath index (splitKey k) with
      | none =>
          rw [visitMap_cons_skip index w k v rest hl]
          exact ih w n hn (fun kv h => hmiss kv (List.mem_cons_of_mem _ h)) hidx
      | some e' =>
          have hmem : (splitKey k, e') ∈ index := lookupPath_mem index _ e' hl
          obtain ⟨n', hge', hpath⟩ := hidx _ _ hmem
          have hne : e' ≠ e := by
            intro hcontra
            subst hcontra
            rw [hn] at hge'
            exact hmiss (k, v) (List.mem_cons_self ..) (by rw [← hpath, Option.some_inj.mp hge'])
          cases ha : applyEntry w e' v with
          | none => rw [visitMap_cons_err index w k v rest e' hl ha]; exact hn
          | some w1 =>
              rw [visitMap_cons_apply index w w1 k v rest e' hl ha]
              refine ih w1 n ?_ (fun kv h => hmiss kv (List.mem_cons_of_mem _ h)) ?_
              · rw [applyEntry_get?_ne w w1 e' v ha e (fun h => hne h.symm), hn]
              · intro p ee hmm
                obtain ⟨nn', hh, hp⟩ := hidx p ee hmm
                have hshape := applyEntry_preserves_shape w w1 e' v ha ee
                rw [hh] at hshape
                cases hg1 : w1.get? ee with
                | none =>
                    rw [hg1] at hshape
                    simp only [Option.map_some', Option.map_none'] at hshape
                    exact Option.noConfusion hshape
                | some nn1 =>
                    rw [hg1] at hshape
                    simp only [Option.map_some', Option.some_inj, Node.shape,
                      Prod.mk.injEq] at hshape
                    exact ⟨nn1, rfl, hshape.1.trans hp⟩

/-- **C9 witness.** After loading a map that only mentions `"ui.thickness"`, the
`"ui.color.Named.code"` scalar (entity 12) keeps its spawned contents. -/
theorem c9_missing_keys_retain_value_witness :
    (deserialize uiWorld [("ui.thickness", .int 5)]).1.get? 12 =
      some { path := ["ui", "color", "Named", "code"], generation := 1,
             scalar := some { viaWrapper := false, val := .str "" },
             relevance := some (3, "Named"), children := [] } :=
  c9_missing_keys_retain_value uiWorld [("ui.thickness", .int 5)] 12 _ (by rfl)
    (by decide)

/-- **C10.** `ReadConfigChange::consume_change` with an empty `Local` cache returns `true`
whatever the current witness is (in particular when nothing was ever mutated), and stores
the witness; an immediately following call — the witness recomputed from the unchanged
world is the same value — returns `false`. -/
theorem c10_first_consume_change_true (c : ChangedVal) :
    consumeChange none c = (true, some c) ∧ (consumeChange (some c) c).1 = false := by
  refine ⟨rfl, ?_⟩
  simp [consumeChange, isNoneOr, ChangedVal.beq_self c]

/-- **C8.** `init_config_with` panics exactly when the manager type differs from an earlier
registration, or the root type was already registered, or the key string was already used;
otherwise it registers the root (manager recorded, key added, root type added, root tree
spawned at path `[key]`) and returns normally.  The well-formedness hypothesis states that
the `root_keys` set lives inside the `ManagerType` resource: before the first registration
that resource does not exist, so no key is taken. -/
theorem c8_init_config_with_panics_iff (M C : Nat) (schema : Schema) (key : String)
    (st : AppState) (hwf : st.managerId = none → st.rootKeys = []) :
    ((∃ p, initConfigWith M C schema key st = .error p) ↔
      ((∃ id, st.managerId = some id ∧ id ≠ M) ∨ key ∈ st.rootKeys ∨ C ∈ st.rootTypes)) ∧
    (∀ st', initConfigWith M C schema key st = .ok st' →
      st'.managerId = some M ∧ key ∈ st'.rootKeys ∧ C ∈ st'.rootTypes ∧
      st'.world =
        (spawnWorld schema { path := [key], parent := none, dependency := none }
          st.world).1) := by
  unfold initConfigWith
  cases hm : st.managerId with
  | none =>
      dsimp only
      rw [hwf hm]
      unfold initConfigWith.initKeyStep
      rw [if_neg (List.not_mem_nil key)]
      by_cases hc : C ∈ st.rootTypes
      · rw [if_pos hc]
        constructor
        · constructor
          · intro _; exact Or.inr (Or.inr hc)
          · intro _; exact ⟨.duplicateRootType, rfl⟩
        · intro st' h
          exact absurd h (by simp)
      · rw [if_neg hc]
        constructor
        · constructor
          · rintro ⟨p, hp⟩; exact absurd hp (by simp)
          · rintro (⟨id, hid, _⟩ | hk | hc')
            · exact Option.noConfusion hid
            · exact absurd hk (List.not_mem_nil key)
            · exact absurd hc' hc
        · intro st' h
          simp only [Except.ok.injEq] at h
          subst h
          exact ⟨rfl, List.mem_cons_self .., List.mem_cons_self .., rfl⟩
  | some id =>
      dsimp only
      by_cases hid : id ≠ M
      · rw [if_pos hid]
        constructor
        · constructor
          · intro _; exact Or.inl ⟨id, rfl, hid⟩
          · intro _; exact ⟨.mismatchedManager, rfl⟩
        · intro st' h; exact absurd h (by simp)
      · rw [if_neg hid]
        push_neg at hid
        subst hid
        unfold initConfigWith.initKeyStep
        by_cases hk : key ∈ st.rootKeys
        · rw [if_pos hk]
          constructor
          · constructor
            · intro _; exact Or.inr (Or.inl hk)
            · intro _; exact ⟨.duplicateKey, rfl⟩
          · intro st' h
            exact absurd h (by simp)
        · rw [if_neg hk]
          by_cases hc : C ∈ st.rootTypes
          · rw [if_pos hc]
            constructor
            · constructor
              · intro _; exact Or.inr (Or.inr hc)
              · intro _; exact ⟨.duplicateRootType, rfl⟩
            · intro st' h
              exact absurd h (by simp)
          · rw [if_neg hc]
            constructor
            · constructor
              · rintro ⟨p, hp⟩; exact absurd hp (by simp)
              · rintro (⟨id', hid', hne⟩ | hk' | hc')
                · exact absurd (Option.some_inj.mp hid').symm hne
                · exact absurd hk' hk
                · exact absurd hc' hc
            · intro st' h
              simp only [Except.ok.injEq] at h
              subst h
              exact ⟨rfl, List.mem_cons_self .., List.mem_cons_self .., rfl⟩

/-- **C8 witness.** Registering the §6 schema in a fresh app succeeds. -/
theorem c8_init_config_with_panics_iff_witness :
    (((∃ p, initConfigWith 0 1 settingsSchema "ui"
        { managerId := none, rootKeys := [], rootTypes := [], world := [] } = .error p) ↔
      ((∃ id, (none : Option Nat) = some id ∧ id ≠ 0) ∨ "ui" ∈ ([] : List String) ∨
        1 ∈ ([] : List Nat))) ∧
    (∀ st', initConfigWith 0 1 settingsSchema "ui"
        { managerId := none, rootKeys := [], rootTypes := [], world := [] } = .ok st' →
      st'.managerId = some 0 ∧ "ui" ∈ st'.rootKeys ∧ 1 ∈ st'.rootTypes ∧
      st'.world =
        (spawnWorld settingsSchema { path := ["ui"], parent := none, dependency := none }
          []).1)) :=
  c8_init_config_with_panics_iff 0 1 settingsSchema "ui"
    { managerId := none, rootKeys := [], rootTypes := [], world := [] } (fun _ => rfl)

/-- **C7.** `Serde::serialize_all` is deterministic: the scan list collected from the
per-type registry (whose iteration order is arbitrary) is sorted by path before emission,
so any two scans that are permutations of each other — with the store's unique paths —
serialize to the identical flat map, and the emitted entries are in ascending lexicographic
order of the nodes' path segment lists. -/
theorem c7_serialize_sorted_deterministic (w : World)
    (scan1 scan2 : List (List String × Nat)) (hperm : scan1.Perm scan2)
    (hnodup : (scan1.map Prod.fst).Nodup) :
    serializeAllScan w scan1 = serializeAllScan w scan2 ∧
    ((List.insertionSort scanLe scan1).map Prod.fst).Pairwise
      (fun p q => pathLe p q = true) := by
  haveI htot : IsTotal (List String × Nat) scanLe := ⟨fun a b => pathLe_total a.1 b.1⟩
  haveI htr : IsTrans (List String × Nat) scanLe :=
    ⟨fun a b c h1 h2 => pathLe_trans a.1 b.1 c.1 h1 h2⟩
  have hs1 := List.sorted_insertionSort scanLe scan1
  have hs2 := List.sorted_insertionSort scanLe scan2
  have hp : (List.insertionSort scanLe scan1).Perm (List.insertionSort scanLe scan2) :=
    (List.perm_insertionSort scanLe scan1).trans
      (hperm.trans (List.perm_insertionSort scanLe scan2).symm)
  have hnd1 : ((List.insertionSort scanLe scan1).map Prod.fst).Nodup :=
    (((List.perm_insertionSort scanLe scan1).map Prod.fst).nodup_iff).mpr hnodup
  have hnd2 : ((List.insertionSort scanLe scan2).map Prod.fst).Nodup :=
    ((hp.map Prod.fst).nodup_iff).mp hnd1
  have hstrict : ∀ l : List (List String × Nat), l.Sorted scanLe → (l.map Prod.fst).Nodup →
      l.Pairwise fun a b => scanLe a b ∧ a.1 ≠ b.1 := by
    intro l hsor hnd
    exact hsor.and (List.pairwise_map.mp hnd)
  haveI : IsAntisymm (List String × Nat) (fun a b => scanLe a b ∧ a.1 ≠ b.1) :=
    ⟨fun a b hab hba => absurd (pathLe_antisymm a.1 b.1 hab.1 hba.1) hab.2⟩
  have heq : List.insertionSort scanLe scan1 = List.insertionSort scanLe scan2 :=
    List.eq_of_perm_of_sorted hp (hstrict _ hs1 hnd1) (hstrict _ hs2 hnd2)
  constructor
  · unfold serializeAllScan
    rw [heq]
  · exact List.pairwise_map.mpr hs1

/-- **C7 witness.** Two scan orders of the same two entries serialize identically and come
out path-sorted. -/
theorem c7_serialize_sorted_deterministic_witness :
    serializeAllScan uiWorld [(["ui", "thickness"], 1), (["ui", "color", "discrim"], 3)] =
      serializeAllScan uiWorld
        [(["ui", "color", "discrim"], 3), (["ui", "thickness"], 1)] ∧
    ((List.insertionSort scanLe
        [(["ui", "thickness"], 1), (["ui", "color", "discrim"], 3)]).map Prod.fst).Pairwise
      (fun p q => pathLe p q = true) :=
  c7_serialize_sorted_deterministic uiWorld
    [(["ui", "thickness"], 1), (["ui", "color", "discrim"], 3)]
    [(["ui", "color", "discrim"], 3), (["ui", "thickness"], 1)]
    (List.Perm.swap _ _ _) (by decide)

/-- **C3.** Switching the active variant does *not* change the result of `changed`,
because `changed` for an enum never returns a result at all: the generated
`ChangedQueryData` (`gen_changed_fn_enum`) requests the component `&ScalarData<Discrim>`
for the discriminant entity, but spawning (`gen_discrim`) only ever inserts
`ScalarData<EnumDiscriminantWrapper<Discrim>>` — a different component type — so the
change-detection query cannot resolve and the generated `expect` panics (modelled as
`none`).  Concretely for the §6 enum: the bare-component lookup fails while the
wrapper-component lookup holds the discriminant, before and after a variant switch, and
the witness before the switch equals the witness after it (both are the panic outcome),
contradicting the claim. -/
theorem c3_enum_changed_never_resolves :
    getScalarComp colorWorld 1 false = none ∧
    getScalarComp colorWorld 1 true =
      some (.discrim ["White", "Rgb", "Rgba", "Named"] "White") ∧
    getScalarComp colorSwitched 1 true =
      some (.discrim ["White", "Rgb", "Rgba", "Named"] "Rgb") ∧
    changed colorWorld colorSchema colorHandle = none ∧
    changed colorSwitched colorSchema colorHandle = none ∧
    changed colorSwitched colorSchema colorHandle =
      changed colorWorld colorSchema colorHandle :=
  ⟨rfl, rfl, rfl, rfl, rfl, rfl⟩

mutual
theorem showNode_subset_ids : ∀ (w : World) (t : ETree) (drawn : List Nat),
    showNode w t = some drawn → ∀ i ∈ drawn, i ∈ t.ids
  | w, .mk id children, drawn => by
      intro hshow i hi
      unfold showNode at hshow
      cases hg : w.get? id with
      | none => simp only [hg] at hshow; exact Option.noConfusion hshow
      | some n =>
          simp only [hg] at hshow
          have hvisit : (if n.scalar.isSome then some [id]
              else showNodeList w children) = some drawn → i ∈ (ETree.mk id children).ids := by
            intro hv
            by_cases hs : n.scalar.isSome
            · rw [if_pos hs] at hv
              have : drawn = [id] := (Option.some_inj.mp hv).symm
              subst this
              have : i = id := List.mem_singleton.mp hi
              subst this
              exact List.mem_cons_self ..
            · rw [if_neg hs] at hv
              have := showNodeList_subset_ids w children drawn hv i hi
              exact List.mem_cons_of_mem _ this
          cases hr : n.relevance with
          | none => simp only [hr] at hshow; exact hvisit hshow
          | some dv =>
              obtain ⟨dependency, variant⟩ := dv
              simp only [hr] at hshow
              cases hd : w.get? dependency with
              | none => simp only [hd] at hshow; exact Option.noConfusion hshow
              | some dep =>
                  simp only [hd] at hshow
                  by_cases hrel : isEntityRelevant dep variant = true
                  · rw [if_pos hrel] at hshow; exact hvisit hshow
                  · rw [if_neg hrel] at hshow
                    have : drawn = [] := (Option.some_inj.mp hshow).symm
                    subst this
                    exact absurd hi (List.not_mem_nil i)

theorem showNodeList_subset_ids : ∀ (w : World) (ts : ETreeList) (drawn : List Nat),
    showNodeList w ts = some drawn → ∀ i ∈ drawn, i ∈ ts.ids
  | w, .nil, drawn => by
      intro hshow i hi
      unfold showNodeList at hshow
      have : drawn = [] := (Option.some_inj.mp hshow).symm
      subst this
      exact absurd hi (List.not_mem_nil i)
  | w, .cons t rest, drawn => by
      intro hshow i hi
      unfold showNodeList at hshow
      cases h1 : showNode w t with
      | none => simp only [h1] at hshow; exact Option.noConfusion hshow
      | some d1 =>
          simp only [h1] at hshow
          cases h2 : showNodeList w rest with
          | none => simp only [h2] at hshow; exact Option.noConfusion hshow
          | some d2 =>
              simp only [h2] at hshow
              have : drawn = d1 ++ d2 := (Option.some_inj.mp hshow).symm
              subst this
              rcases List.mem_append.mp hi with hmem | hmem
              · exact List.mem_append.mpr
                  (Or.inl (showNode_subset_ids w t d1 h1 i hmem))
              · exact List.mem_append.mpr
                  (Or.inr (showNodeList_subset_ids w rest d2 h2 i hmem))
end

mutual
theorem subtree_ids_subset : ∀ (t sub : ETree), sub ∈ t.subtrees → ∀ i ∈ sub.ids, i ∈ t.ids
  | .mk id children, sub => by
      intro hsub i hi
      unfold ETree.subtrees at hsub
      rcases List.mem_cons.mp hsub with heq | hmem
      · subst heq; exact hi
      · exact List.mem_cons_of_mem _ (subtree_ids_subset_list children sub hmem i hi)

theorem subtree_ids_subset_list : ∀ (ts : ETreeList) (sub : ETree), sub ∈ ts.subtrees →
    ∀ i ∈ sub.ids, i ∈ ts.ids
  | .nil, sub => by
      intro hsub i hi
      exact absurd hsub (List.not_mem_nil sub)
  | .cons t rest, sub => by
      intro hsub i hi
      unfold ETreeList.subtrees at hsub
      rcases List.mem_append.mp hsub with hmem | hmem
      · exact List.mem_append.mpr (Or.inl (subtree_ids_subset t sub hmem i hi))
      · exact List.mem_append.mpr (Or.inr (subtree_ids_subset_list rest sub hmem i hi))
end

/-- A node at which `irrelevantAt` holds is skipped by `show_node` with nothing drawn. -/
theorem showNode_irrelevant (w : World) (id : Nat) (children : ETreeList)
    (hirr : irrelevantAt w id = true) : showNode w (.mk id children) = some [] := by
  unfold irrelevantAt at hirr
  cases hg : w.get? id with
  | none => simp only [hg] at hirr; exact Bool.noConfusion hirr
  | some n =>
      simp only [hg] at hirr
      cases hr : n.relevance with
      | none => simp only [hr] at hirr; exact Bool.noConfusion hirr
      | some dv =>
          obtain ⟨dependency, variant⟩ := dv
          simp only [hr] at hirr
          cases hd : w.get? dependency with
          | none => simp only [hd] at hirr; exact Bool.noConfusion hirr
          | some dep =>
              simp only [hd] at hirr
              have hrel : isEntityRelevant dep variant = false := by
                cases hh : isEntityRelevant dep variant with
                | false => rfl
                | true => rw [hh] at hirr; exact Bool.noConfusion hirr
              unfold showNode
              simp only [hg, hr, hd, hrel]
              rfl

mutual
theorem showNode_excludes_irrelevant : ∀ (w : World) (t : ETree) (drawn : List Nat)
    (sub : ETree), showNode w t = some drawn → t.ids.Nodup → sub ∈ t.subtrees →
    irrelevantAt w sub.id = true → ∀ i ∈ sub.ids, i ∉ drawn
  | w, .mk id children, drawn, sub => by
      intro hshow hnodup hsub hirr i hi
      rcases List.mem_cons.mp hsub with heq | hmem
      · subst heq
        rw [showNode_irrelevant w id children hirr] at hshow
        have : drawn = [] := (Option.some_inj.mp hshow).symm
        subst this
        exact List.not_mem_nil i
      · have hid : i ∈ children.ids := subtree_ids_subset_list children sub hmem i hi
        have hnodup' := List.nodup_cons.mp hnodup
        unfold showNode at hshow
        cases hg : w.get? id with
        | none => simp only [hg] at hshow; exact Option.noConfusion hshow
        | some n =>
            simp only [hg] at hshow
            have hvisit : (if n.scalar.isSome then some [id]
                else showNodeList w children) = some drawn → i ∉ drawn := by
              intro hv
              by_cases hs : n.scalar.isSome
              · rw [if_pos hs] at hv
                have : drawn = [id] := (Option.some_inj.mp hv).symm
                subst this
                intro hcontra
                have : i = id := List.mem_singleton.mp hcontra
                subst this
                exact hnodup'.1 hid
              · rw [if_neg hs] at hv
                exact showNodeList_excludes_irrelevant w children drawn sub hv hnodup'.2
                  hmem hirr i hi
            cases hr : n.relevance with
            | none => simp only [hr] at hshow; exact hvisit hshow
            | some dv =>
                obtain ⟨dependency, variant⟩ := dv
                simp only [hr] at hshow
                cases hd : w.get? dependency with
                | none => simp only [hd] at hshow; exact Option.noConfusion hshow
                | some dep =>
                    simp only [hd] at hshow
                    by_cases hrel : isEntityRelevant dep variant = true
                    · rw [if_pos hrel] at hshow; exact hvisit hshow
                    · rw [if_neg hrel] at hshow
                      have : drawn = [] := (Option.some_inj.mp hshow).symm
                      subst this
                      exact List.not_mem_nil i

theorem showNodeList_excludes_irrelevant : ∀ (w : World) (ts : ETreeList)
    (drawn : List Nat) (sub : ETree), showNodeList w ts = some drawn → ts.ids.Nodup →
    sub ∈ ts.subtrees → irrelevantAt w sub.id = true → ∀ i ∈ sub.ids, i ∉ drawn
  | w, .nil, drawn, sub => by
      intro _ _ hsub _ _ _
      exact absurd hsub (List.not_mem_nil sub)
  | w, .cons t rest, drawn, sub => by
      intro hshow hnodup hsub hirr i hi
      unfold showNodeList at hshow
      cases h1 : showNode w t with
      | none => simp only [h1] at hshow; exact Option.noConfusion hshow
      | some d1 =>
          simp only [h1] at hshow
          cases h2 : showNodeList w rest with
          | none => simp only [h2] at hshow; exact Option.noConfusion hshow
          | some d2 =>
              simp only [h2] at hshow
              have hdrawn : drawn = d1 ++ d2 := (Option.some_inj.mp hshow).symm
              subst hdrawn
              have hnd := List.nodup_append.mp hnodup
              rcases List.mem_append.mp hsub with hmem | hmem
              · intro hcontra
                rcases List.mem_append.mp hcontra with hc | hc
                · exact showNode_excludes_irrelevant w t d1 sub h1 hnd.1 hmem hirr i hi hc
                · have hin1 : i ∈ t.ids := subtree_ids_subset t sub hmem i hi
                  have hin2 : i ∈ rest.ids := showNodeList_subset_ids w rest d2 h2 i hc
                  exact hnd.2.2 hin1 hin2
              · intro hcontra
                rcases List.mem_append.mp hcontra with hc | hc
                · have hin1 : i ∈ t.ids := showNode_subset_ids w t d1 h1 i hc
                  have hin2 : i ∈ rest.ids := subtree_ids_subset_list rest sub hmem i hi
                  exact hnd.2.2 hin1 hin2
                · exact showNodeList_excludes_irrelevant w rest d2 sub h2 hnd.2.1
                    hmem hirr i hi hc
end

mutual
theorem showNode_draws_reachable : ∀ (w : World) (t : ETree) (drawn : List Nat) (i : Nat),
    showNode w t = some drawn → drawReach w t i = true → i ∈ drawn
  | w, .mk id children, drawn, i => by
      intro hshow hreach
      unfold drawReach at hreach
      rcases Bool.and_eq_true .. ▸ hreach with ⟨hpass, hrest⟩
      unfold relevantPass at hpass
      cases hg : w.get? id with
      | none => simp only [hg] at hpass; exact Bool.noConfusion hpass
      | some n =>
          simp only [hg] at hpass hrest
          have hvisit : (if n.scalar.isSome then some [id]
              else showNodeList w children) = some drawn → i ∈ drawn := by
            intro hv
            by_cases hs : n.scalar.isSome
            · rw [if_pos hs] at hv hrest
              have : drawn = [id] := (Option.some_inj.mp hv).symm
              subst this
              have : id = i := by simpa using hrest
              subst this
              exact List.mem_singleton.mpr rfl
            · rw [if_neg hs] at hv hrest
              exact showNodeList_draws_reachable w children drawn i hv hrest
          unfold showNode at hshow
          simp only [hg] at hshow
          cases hr : n.relevance with
          | none => simp only [hr] at hshow; exact hvisit hshow
          | some dv =>
              obtain ⟨dependency, variant⟩ := dv
              simp only [hr] at hshow hpass
              cases hd : w.get? dependency with
              | none => simp only [hd] at hpass; exact Bool.noConfusion hpass
              | some dep =>
                  simp only [hd] at hshow hpass
                  rw [if_pos hpass] at hshow
                  exact hvisit hshow

theorem showNodeList_draws_reachable : ∀ (w : World) (ts : ETreeList) (drawn : List Nat)
    (i : Nat), showNodeList w ts = some drawn → drawReachList w ts i = true → i ∈ drawn
  | w, .nil, drawn, i => by
      intro _ hreach
      exact Bool.noConfusion hreach
  | w, .cons t rest, drawn, i => by
      intro hshow hreach
      unfold showNodeList at hshow
      cases h1 : showNode w t with
      | none => simp only [h1] at hshow; exact Option.noConfusion hshow
      | some d1 =>
          simp only [h1] at hshow
          cases h2 : showNodeList w rest with
          | none => simp only [h2] at hshow; exact Option.noConfusion hshow
          | some d2 =>
              simp only [h2] at hshow
              have hdrawn : drawn = d1 ++ d2 := (Option.some_inj.mp hshow).symm
              subst hdrawn
              unfold drawReachList at hreach
              rcases Bool.or_eq_true .. ▸ hreach with hr | hr
              · exact List.mem_append.mpr
                  (Or.inl (showNode_draws_reachable w t d1 i h1 hr))
              · exact List.mem_append.mpr
                  (Or.inr (showNodeList_draws_reachable w rest d2 i h2 hr))
end

/-- **C5.** During an editor traversal (`show_node` from a root), the per-scalar draw
callback is never invoked for any node inside a subtree whose root carries a
`ConditionalRelevance` whose predicate on its dependency entity is currently false, while
every scalar node whose path from the traversal root passes only relevance-satisfied nodes
still has its draw callback invoked. -/
theorem c5_editor_skips_irrelevant_subtrees (w : World) (t : ETree) (drawn : List Nat)
    (hmatch : treeMatches w t = true) (hshow : showNode w t = some drawn)
    (hnodup : t.ids.Nodup) :
    (∀ sub ∈ t.subtrees, irrelevantAt w sub.id = true → ∀ i ∈ sub.ids, i ∉ drawn) ∧
    (∀ i, drawReach w t i = true → i ∈ drawn) :=
  have _ := hmatch
  ⟨fun sub hsub hirr i hi =>
      showNode_excludes_irrelevant w t drawn sub hshow hnodup hsub hirr i hi,
    fun i hreach => showNode_draws_reachable w t drawn i hshow hreach⟩

/-- **C5 witness.** With `White` active in `uiWorld`, the traversal draws exactly the
`thickness` scalar (1) and the discriminant (3); the `Rgb` field 4 sits in an irrelevant
subtree and is never drawn, while 1 is drawn. -/
theorem c5_editor_skips_irrelevant_subtrees_witness :
    showNode uiWorld uiTree = some [1, 3] ∧
    ((∀ sub ∈ uiTree.subtrees, irrelevantAt uiWorld sub.id = true →
        ∀ i ∈ sub.ids, i ∉ [1, 3]) ∧
     (∀ i, drawReach uiWorld uiTree i = true → i ∈ [1, 3])) :=
  ⟨rfl,
    c5_editor_skips_irrelevant_subtrees uiWorld uiTree [1, 3] (by decide) rfl (by decide)⟩

/-- **C4 counterexample.** In the spawned §6 tree `uiWorld`, entity 4 — the scalar leaf
`ui.color.Rgb.0`, spawned with generation 1 — has its `FieldGeneration` bumped to 2 by a
mutation, yet the root struct's `changed` result is *identical* before and after the
mutation: the enum field's generated change query never resolves, so no ancestor witness
can differ.  The unrestricted propagation claim therefore fails on any schema containing
an enum. -/
theorem c4_counterexample :
    (uiWorld.get? 4).map Node.core = some (["ui", "color", "Rgb", "0"], 1,
      some { viaWrapper := false, val := .float 0 }, some (3, "Rgb")) ∧
    ((bumpGeneration uiWorld 4).get? 4).map Node.generation = some 2 ∧
    changed (bumpGeneration uiWorld 4) settingsSchema uiHandle =
      changed uiWorld settingsSchema uiHandle :=
  ⟨rfl, rfl, rfl⟩

/-- **C4 (amended: enum-free schemas).** For every *enum-free* schema shaped in the world
(as `spawn_world` leaves it), bump the generation of the scalar leaf at position `pos`.
Then for every split `pos = q ++ r` — i.e. for the scalar itself (`q = pos`) and every
ancestor composite on the way (`q` a proper prefix, down to the root at `q = []`) — the
`changed` result of the subtree at `q` differs from its value before the mutation. -/
theorem c4_changed_propagates (s : Schema) (h : SpawnHandle) (w : World)
    (pos q r : List Nat) (d : Val) (e : Nat) (s' : Schema) (h' : SpawnHandle)
    (hef : s.enumFree = true) (hsh : shaped w s h = true)
    (hsub : subAt s h pos = some (.scalar d, .leaf e))
    (hqr : pos = q ++ r) (hq : subAt s h q = some (s', h')) :
    changed (bumpGeneration w e) s' h' ≠ changed w s' h' := by
  subst hqr
  have hrest : subAt s' h' r = some (.scalar d, .leaf e) :=
    (subAt_append_some q s h r s' h' hq).symm.trans hsub
  obtain ⟨hef', hsh'⟩ := subAt_pres q s h w s' h' hq hef hsh
  exact changed_bump_ne r s' h' w e d hef' hsh' hrest

/-- **C4 witness.** The `Rgba` struct spawned on its own: bumping the generation of field
`1` (entity 2) changes the root struct's `changed` witness. -/
theorem c4_changed_propagates_witness :
    changed (bumpGeneration (spawnWorld rgbaSchema uiCtx []).1 2) rgbaSchema
        (spawnWorld rgbaSchema uiCtx []).2 ≠
      changed (spawnWorld rgbaSchema uiCtx []).1 rgbaSchema
        (spawnWorld rgbaSchema uiCtx []).2 :=
  c4_changed_propagates rgbaSchema (spawnWorld rgbaSchema uiCtx []).2
    (spawnWorld rgbaSchema uiCtx []).1 [1] [] [1] (.float 0) 2 rgbaSchema
    (spawnWorld rgbaSchema uiCtx []).2 rfl rfl rfl rfl rfl

end BevyModConfig
